import Mathlib

/-!
Verification of the Crank-Nicolson option-pricing engine
(InterestRate / Tridiag / Option classes).

Conventions of the shallow embedding:
* IEEE doubles are modelled by exact rationals `ℚ`; `std::exp` is modelled by
  an arbitrary function parameter `expf : ℚ → ℚ`.
* A `std::vector<double>` built by `push_back` loops is modelled as an index
  function `ℕ → ℚ` (entry `k` is the value pushed at iteration `k`), with the
  relevant length passed separately where an operation needs it.
* C++ exceptions are modelled by `Option`/`Except` results: `none`/`.error`
  means the corresponding C++ code throws.
* The comparison `std::sqrt s > t` (for `s ≥ 0`) is modelled without square
  roots as `t < 0 ∨ t * t < s`, which is equivalent.
-/

/-- Scalar times vector, `operator*(double, std::vector<double>)` of Option.cpp. -/
def vecScale (k : ℚ) (v : ℕ → ℚ) : ℕ → ℚ := fun i => k * v i

/-- Scalar minus vector, `operator-(double, std::vector<double>)` of Option.cpp. -/
def scalarSub (k : ℚ) (v : ℕ → ℚ) : ℕ → ℚ := fun i => k - v i

/-- Scalar plus vector, `operator+(double, std::vector<double>)` of Option.cpp. -/
def scalarAdd (k : ℚ) (v : ℕ → ℚ) : ℕ → ℚ := fun i => k + v i

/-- Vector difference, `operator-(std::vector<double>, std::vector<double>)`. -/
def vecSub (v w : ℕ → ℚ) : ℕ → ℚ := fun i => v i - w i

/-- Sum of squares of the first `n` entries; `norm` in Option.cpp computes
`sqrt` of this value, which we keep squared (see file header). -/
def normSq (v : ℕ → ℚ) (n : ℕ) : ℚ := ((List.range n).map (fun i => v i * v i)).sum

/-- Model of C `std::round` (nearest integer, halfway cases away from zero). -/
def roundQ (q : ℚ) : ℤ := if 0 ≤ q then ⌊q + 1/2⌋ else -⌊-q + 1/2⌋

/-- Embedding of `InterestRate::operator()(double t)`: walk over consecutive control points;
on the first segment `[current.first, next.first]` containing `t` return the
linear interpolation; if no segment contains `t` the C++ throws `InvalidTime`,
modelled as `none`. -/
def evalIR : List (ℚ × ℚ) → ℚ → Option ℚ
  | p :: q :: rest, t =>
    if p.1 ≤ t ∧ t ≤ q.1 then
      some (((t - p.1) * q.2 + (q.1 - t) * p.2) / (q.1 - p.1))
    else evalIR (q :: rest) t
  | _, _ => none

/-- The first search loop of `InterestRate::integral(t0, tf)` (part_009):
`stop1` ends at the first segment containing `t0`, or at the last segment when
no segment contains `t0`.  We return the suffix of the curve starting at
`stop1`. -/
def findSeg : List (ℚ × ℚ) → ℚ → List (ℚ × ℚ)
  | p :: q :: rest, t =>
    if p.1 ≤ t ∧ t ≤ q.1 then p :: q :: rest
    else
      match rest with
      | [] => p :: q :: rest
      | r :: rs => findSeg (q :: r :: rs) t
  | l, _ => l

/-- The second loop of `InterestRate::integral(t0, tf)` (part_009): accumulate
full trapezoid areas of whole segments from `stop2` on, and close with a
partial trapezoid once the segment containing `tf` is reached; if the loop
runs off the end, the accumulated sum is returned as is.  `pts` is the whole
curve (the C++ calls `operator()` on the full object). -/
def integralLoop (pts : List (ℚ × ℚ)) : List (ℚ × ℚ) → ℚ → Option ℚ
  | p :: q :: rest, tf =>
    if p.1 ≤ tf ∧ tf ≤ q.1 then
      (evalIR pts tf).map (fun rf => (rf + p.2) * (tf - p.1) / 2)
    else
      (integralLoop pts (q :: rest) tf).map
        (fun acc => (p.2 + q.2) * (q.1 - p.1) / 2 + acc)
  | _, _ => some 0

/-- Body of `InterestRate::integral(double t0, double tf)` of part_009 (the exact
trapezoid implementation): locate the segment of `t0`, emit either a single
trapezoid (when `tf` lies in the same segment) or a partial trapezoid plus the
accumulation loop.  Dereferencing past the end of a too-short curve is
undefined behaviour in the C++ and is modelled as `none`. -/
def integralBody (pts : List (ℚ × ℚ)) (seg : List (ℚ × ℚ)) (t0 tf : ℚ) : Option ℚ :=
  match seg with
  | _ :: q :: rest =>
    if tf ≤ q.1 then
      match evalIR pts t0, evalIR pts tf with
      | some r0, some rf => some ((r0 + rf) * (tf - t0) / 2)
      | _, _ => none
    else
      match evalIR pts t0, integralLoop pts (q :: rest) tf with
      | some r0, some s => some ((r0 + q.2) * (q.1 - t0) / 2 + s)
      | _, _ => none
  | _ => none

/-- The two-argument trapezoid integral, split as: locate the segment of
`t0` with `findSeg`, then run the body on the found suffix. -/
def integralOn (pts : List (ℚ × ℚ)) (seg : List (ℚ × ℚ)) (t0 tf : ℚ) : Option ℚ :=
  integralBody pts (findSeg seg t0) t0 tf

/-- Embedding of `InterestRate::integral(double t0, double tf)` of part_009. -/
def integralIR (pts : List (ℚ × ℚ)) (t0 tf : ℚ) : Option ℚ := integralOn pts pts t0 tf

/-- Linear interpolation on the segment `[p.1, q.1]`; the value
`InterestRate::operator()` returns when this segment is the one found. -/
def interp (p q : ℚ × ℚ) (t : ℚ) : ℚ := ((t - p.1) * q.2 + (q.1 - t) * p.2) / (q.1 - p.1)

/-- Exact integral of the piecewise-linear curve from its first control time
to `t` (used as the specification value, and antiderivative, for the two-argument
trapezoid integral of part_009 in the additivity development). -/
def cum : List (ℚ × ℚ) → ℚ → ℚ
  | p :: q :: rest, t =>
    if t ≤ q.1 then (p.2 + interp p q t) * (t - p.1) / 2
    else (p.2 + q.2) * (q.1 - p.1) / 2 + cum (q :: rest) t
  | _, _ => 0

/-- Embedding of `support_integral` (src/unnamed/part_008): unsigned area under
the rate segment with endpoint rates `r1`, `r2` over `[t1, t2]`.  When the two
rates have the same sign this is the trapezoid area `|r1 + r2| * (t2 - t1) / 2`;
when they have strictly opposite signs the segment is split at its zero
crossing `x = (t1*r2 - t2*r1) / (r2 - r1)` and the two triangle areas are
added in absolute value. -/
def support_integral (r1 r2 t1 t2 : ℚ) : ℚ :=
  if (0 ≤ r1 ∧ 0 ≤ r2) ∨ (r1 ≤ 0 ∧ r2 ≤ 0) then
    |r1 + r2| * (t2 - t1) / 2
  else
    |((t1 * r2 - t2 * r1) / (r2 - r1) - t1) * r1 / 2| +
      |(t2 - (t1 * r2 - t2 * r1) / (r2 - r1)) * r2 / 2|

/-- Loop of the one-argument `InterestRate::integral(double t0)`
(src/unnamed/part_008): walk over the consecutive control-point pairs of the
curve.  A segment bracketing `t0` contributes the area from `t0` to its right
end, its rate at `t0` obtained through `operator()` (which cannot throw there
because that very segment brackets `t0`; the unreachable throw is totalised
with `getD 0`); a segment starting at or after `t0` contributes its full area;
a segment ending before `t0` contributes nothing.  `pts` is the whole curve
(the C++ calls `operator()` on the full object). -/
def integral0Loop (pts : List (ℚ × ℚ)) (t0 : ℚ) : List (ℚ × ℚ) → ℚ
  | p :: q :: rest =>
    (if t0 ≥ p.1 ∧ t0 ≤ q.1 then
      support_integral ((evalIR pts t0).getD 0) q.2 t0 q.1
     else if p.1 ≥ t0 then support_integral p.2 q.2 p.1 q.1
     else 0) + integral0Loop pts t0 (q :: rest)
  | _ => 0

/-- Embedding of the one-argument `InterestRate::integral(double t0)` of
src/unnamed/part_008: the unsigned area under the rate curve from `t0` out to
the last control time. -/
def integral0 (pts : List (ℚ × ℚ)) (t0 : ℚ) : ℚ := integral0Loop pts t0 pts

/-- Control-point times are strictly increasing (data-model invariant of the
rate curve). -/
inductive SortedTimes : List (ℚ × ℚ) → Prop
  | nil : SortedTimes []
  | single (p : ℚ × ℚ) : SortedTimes [p]
  | cons {p q : ℚ × ℚ} {rest : List (ℚ × ℚ)} :
      p.1 < q.1 → SortedTimes (q :: rest) → SortedTimes (p :: q :: rest)

/-- Relation `AdjIn p q l`: `p` and `q` are adjacent control points of `l` (in this
order). -/
inductive AdjIn : (ℚ × ℚ) → (ℚ × ℚ) → List (ℚ × ℚ) → Prop
  | head (p q : ℚ × ℚ) (rest : List (ℚ × ℚ)) : AdjIn p q (p :: q :: rest)
  | tail (x : ℚ × ℚ) {p q : ℚ × ℚ} {l : List (ℚ × ℚ)} : AdjIn p q l → AdjIn p q (x :: l)

/-- Time of the last control point (`0` for the empty curve). -/
def lastTime (pts : List (ℚ × ℚ)) : ℚ := (pts.getLastD (0, 0)).1

/-- Tridiagonal matrix: subdiagonal, diagonal and superdiagonal entries
(`Tridiag` of Tridiag.h, with `std::vector` modelled as index functions). -/
structure Tridiag where
  subdiag : ℕ → ℚ
  diag : ℕ → ℚ
  superdiag : ℕ → ℚ

/-- Embedding of `Tridiag::operator*` on a vector of length `n`: first row uses diagonal
and superdiagonal, middle rows all three bands, last row subdiagonal and
diagonal. -/
def Tridiag.apply (A : Tridiag) (n : ℕ) (x : ℕ → ℚ) : ℕ → ℚ := fun i =>
  if i = 0 then A.diag 0 * x 0 + A.superdiag 0 * x 1
  else if i + 1 = n then A.subdiag (i - 1) * x (i - 1) + A.diag i * x i
  else A.subdiag (i - 1) * x (i - 1) + A.diag i * x i + A.superdiag i * x (i + 1)

/-- The pivots `v` of `Tridiag::solve`: `v_0 = diag_0`,
`v_{i+1} = diag_{i+1} - (subdiag_i / v_i) * superdiag_i`. -/
def Tridiag.pivots (A : Tridiag) : ℕ → ℚ
  | 0 => A.diag 0
  | i + 1 => A.diag (i + 1) - A.subdiag i / Tridiag.pivots A i * A.superdiag i

/-- The multipliers `l` of `Tridiag::solve`: `l_i = subdiag_i / v_i`. -/
def Tridiag.lvec (A : Tridiag) : ℕ → ℚ := fun i => A.subdiag i / A.pivots i

/-- Embedding of `Lower::solve`: forward substitution for a lower bidiagonal matrix with
subdiagonal `sub` and diagonal `d`. -/
def lowerSolve (sub d b : ℕ → ℚ) : ℕ → ℚ
  | 0 => b 0 / d 0
  | i + 1 => (b (i + 1) - sub i * lowerSolve sub d b i) / d (i + 1)

/-- The recursion of `Upper::solve`, indexed by distance from the last row
`n - 1`. -/
def upperSolveAux (d sup b : ℕ → ℚ) (n : ℕ) : ℕ → ℚ
  | 0 => b (n - 1) / d (n - 1)
  | k + 1 => (b (n - 1 - (k + 1)) - sup (n - 1 - (k + 1)) * upperSolveAux d sup b n k) /
      d (n - 1 - (k + 1))

/-- Embedding of `Upper::solve`: back substitution for an upper bidiagonal matrix with
diagonal `d` and superdiagonal `sup`, on vectors of length `n`. -/
def upperSolve (d sup b : ℕ → ℚ) (n : ℕ) : ℕ → ℚ := fun i => upperSolveAux d sup b n (n - 1 - i)

/-- A constant-one diagonal (the `std::vector<double>(diag_.size(), 1.0)`
passed to `Lower` in `Tridiag::solve`). -/
def onesVec : ℕ → ℚ := fun _ => 1

/-- Embedding of `Tridiag::solve`: Doolittle LU factorization (`l`, `v` as above, `c` the
superdiagonal), then forward substitution with `Lower(l, 1)` and back
substitution with `Upper(v, c)`. -/
def Tridiag.solve (A : Tridiag) (n : ℕ) (b : ℕ → ℚ) : ℕ → ℚ :=
  upperSolve A.pivots A.superdiag (lowerSolve A.lvec onesVec b) n

/-- Product of a lower bidiagonal matrix (subdiagonal `sub`, diagonal `d`)
with a vector; proof-side companion of `Lower::solve`. -/
def applyLow (sub d x : ℕ → ℚ) : ℕ → ℚ
  | 0 => d 0 * x 0
  | i + 1 => sub i * x i + d (i + 1) * x (i + 1)

/-- Product of an upper bidiagonal matrix of size `n` (diagonal `d`,
superdiagonal `sup`) with a vector; proof-side companion of `Upper::solve`. -/
def applyUp (d sup x : ℕ → ℚ) (n : ℕ) : ℕ → ℚ := fun i =>
  if i + 1 < n then d i * x i + sup i * x (i + 1) else d i * x i

/-- Constructor arguments of `Option` (Option.h): contract type, exercise
type, maturity `T`, strike `K`, start time `T0`, time and spot mesh counts,
spot `S0`, interest-rate curve, volatility, SOR tolerance and relaxation. -/
structure Params where
  ct : ℤ
  et : ℤ
  T : ℚ
  K : ℚ
  T0 : ℚ
  tm : ℕ
  sm : ℕ
  S0 : ℚ
  ir : List (ℚ × ℚ)
  vol : ℚ
  tol : ℚ
  w : ℚ

/-- The exception classes of OptionExceptions.h thrown by the constructor,
each carrying the offending value its message reports. -/
inductive OptErr where
  | invalidContractType (n : ℤ)
  | invalidExerciseType (n : ℤ)
  | invalidMaturity
  | invalidStrike (x : ℚ)
  | invalidTimeMesh (n : ℕ)
  | invalidSpotMesh (n : ℕ)
  | invalidSpot (x : ℚ)
  | invalidVolatility (x : ℚ)
deriving DecidableEq

/-- The validation block of the `Option` constructor (Option.cpp): the eight
checks in source order; the mesh counts are `unsigned`, so `<= 0` means
`= 0`. -/
def validate (p : Params) : Except OptErr Unit :=
  if p.ct ≠ 1 ∧ p.ct ≠ -1 then .error (.invalidContractType p.ct)
  else if p.et ≠ 1 ∧ p.et ≠ 0 then .error (.invalidExerciseType p.et)
  else if p.T < p.T0 ∨ p.T < 0 then .error .invalidMaturity
  else if p.K ≤ 0 then .error (.invalidStrike p.K)
  else if p.tm = 0 then .error (.invalidTimeMesh p.tm)
  else if p.sm = 0 then .error (.invalidSpotMesh p.sm)
  else if p.S0 ≤ 0 then .error (.invalidSpot p.S0)
  else if p.vol ≤ 0 then .error (.invalidVolatility p.vol)
  else .ok ()

/-- Time step `dT = (T - T0) / time_mesh`. -/
def dTstep (p : Params) : ℚ := (p.T - p.T0) / p.tm

/-- Spot step `dS = 5 * S0 / spot_mesh`. -/
def dSstep (p : Params) : ℚ := 5 * p.S0 / p.sm

/-- Lower boundary value `F0`: `0` for a call, `K` for a put. -/
def F0of (p : Params) : ℚ := if p.ct = 1 then 0 else p.K

/-- Upper boundary value `FM`: `5 * S0` for a call, `0` for a put. -/
def FMof (p : Params) : ℚ := if p.ct = 1 then 5 * p.S0 else 0

/-- Evaluation `curve(dT * i)`, the rate used by the coefficient functions at time index
`i`. -/
def rateAt (p : Params) (i : ℕ) : Option ℚ := evalIR p.ir (dTstep p * i)

/-- Entries of the vector built by `Option::compute_aj` (entry `k` is the
value for spot index `jj = k + 2`), given the evaluated rate `r`. -/
def ajF (p : Params) (r : ℚ) : ℕ → ℚ := fun k =>
  dTstep p / 4 * (p.vol * p.vol * ((k : ℚ) + 2) * ((k : ℚ) + 2) - r * ((k : ℚ) + 2))

/-- Entries of the vector built by `Option::compute_bj` (entry `k` is the
value for spot index `jj = k + 1`), given the evaluated rate `r`. -/
def bjF (p : Params) (r : ℚ) : ℕ → ℚ := fun k =>
  -(dTstep p / 2) * (p.vol * p.vol * ((k : ℚ) + 1) * ((k : ℚ) + 1) + r)

/-- Entries of the vector built by `Option::compute_cj` (entry `k` is the
value for spot index `jj = k + 1`), given the evaluated rate `r`. -/
def cjF (p : Params) (r : ℚ) : ℕ → ℚ := fun k =>
  dTstep p / 4 * (p.vol * p.vol * ((k : ℚ) + 1) * ((k : ℚ) + 1) + r * ((k : ℚ) + 1))

/-- Embedding of `Option::compute_aj(i)`: evaluates the curve at `dT * i` (propagating its
exception) and builds the subdiagonal coefficient vector. -/
def compute_aj (p : Params) (i : ℕ) : Option (ℕ → ℚ) := (rateAt p i).map (ajF p)

/-- Embedding of `Option::compute_bj(i)`. -/
def compute_bj (p : Params) (i : ℕ) : Option (ℕ → ℚ) := (rateAt p i).map (bjF p)

/-- Embedding of `Option::compute_cj(i)`. -/
def compute_cj (p : Params) (i : ℕ) : Option (ℕ → ℚ) := (rateAt p i).map (cjF p)

/-- Embedding of `Option::compute_C(a, b, c) = Tridiag(-1.0 * a, 1.0 - b, -1.0 * c)`. -/
def compute_C (a b c : ℕ → ℚ) : Tridiag :=
  ⟨vecScale (-1) a, scalarSub 1 b, vecScale (-1) c⟩

/-- Embedding of `Option::compute_D(a, b, c) = Tridiag(a, 1.0 + b, c)`. -/
def compute_D (a b c : ℕ → ℚ) : Tridiag := ⟨a, scalarAdd 1 b, c⟩

/-- Embedding of `Option::compute_K(i)` (the documented variant): boundary-injection pair
`(K1, K2)` built from the `j = 1` and `j = spot_mesh - 1` coefficients at time
indices `i - 1` and `i`, with discount factors `exp(-integral(dT * _))`
(`expf` models `std::exp`). -/
def compute_Kpair (p : Params) (expf : ℚ → ℚ) (i : ℕ) : Option (ℚ × ℚ) :=
  match rateAt p (i - 1), rateAt p i with
  | some rp, some rc =>
    let a1p := dTstep p / 4 * (p.vol * p.vol * 1 * 1 - rp * 1)
    let a1c := dTstep p / 4 * (p.vol * p.vol * 1 * 1 - rc * 1)
    let K1 := a1p * F0of p * expf (-integral0 p.ir (dTstep p * ((i : ℚ) - 1))) +
      a1c * F0of p * expf (-integral0 p.ir (dTstep p * i))
    let m : ℚ := (p.sm : ℚ) - 1
    let cmp := dTstep p / 4 * (p.vol * p.vol * m * m - rp * m)
    let cmc := dTstep p / 4 * (p.vol * p.vol * m * m - rc * m)
    let K2 := cmp * (FMof p - p.K * expf (-integral0 p.ir (dTstep p * ((i : ℚ) - 1)))) +
      cmc * (FMof p - p.K * expf (-integral0 p.ir (dTstep p * i)))
    some (K1, K2)
  | _, _ => none

/-- Assembly `RHS = D * F + K`: the boundary pair is added to the first and last entry
of the matrix-vector product (`operator+(std::vector, std::pair)`). -/
def rhsOf (D : Tridiag) (n : ℕ) (F : ℕ → ℚ) (Kp : ℚ × ℚ) : ℕ → ℚ := fun k =>
  Tridiag.apply D n F k + (if k = 0 then Kp.1 else 0) + (if k + 1 = n then Kp.2 else 0)

/-- Overwrite rows `0..rows` of column `col` of a grid with the vector `v`. -/
def writeCol (g : ℕ → ℕ → ℚ) (col : ℕ) (v : ℕ → ℚ) (rows : ℕ) : ℕ → ℕ → ℚ := fun a b =>
  if b = col ∧ a ≤ rows then v a else g a b

/-- The column written by one `european_price` step at time index `jj`:
row `0` is the discounted `F0` boundary, rows `1..sm-1` come from the solved
interior vector, row `sm` is the call boundary `FM - K * exp(-integral)`
(zero for puts). -/
def euroColVec (p : Params) (expf : ℚ → ℚ) (jj : ℕ) (F : ℕ → ℚ) : ℕ → ℚ := fun z =>
  if z = 0 then F0of p * expf (-integral0 p.ir (dTstep p * ((jj : ℚ) - 1)))
  else if z < p.sm then F (z - 1)
  else if p.ct = 1 then FMof p - p.K * expf (-integral0 p.ir (dTstep p * ((jj : ℚ) - 1)))
  else 0

/-- One iteration of the `european_price` loop at time index `jj`: assemble
the coefficient vectors at `jj - 1` and `jj`, build `C` and `D` and the
boundary pair, form `RHS = D * F + K`, solve `C * F' = RHS`, and write grid
column `jj - 1`. -/
def euroStep (p : Params) (expf : ℚ → ℚ) (jj : ℕ) (st : (ℕ → ℕ → ℚ) × (ℕ → ℚ)) :
    Option ((ℕ → ℕ → ℚ) × (ℕ → ℚ)) :=
  match compute_aj p (jj - 1), compute_bj p (jj - 1), compute_cj p (jj - 1),
      compute_aj p jj, compute_bj p jj, compute_cj p jj, compute_Kpair p expf jj with
  | some ac, some bc, some cc, some ad, some bd, some cd, some Kp =>
    let C := compute_C ac bc cc
    let D := compute_D ad bd cd
    let n := p.sm - 1
    let F := Tridiag.solve C n (rhsOf D n st.2 Kp)
    some (writeCol st.1 (jj - 1) (euroColVec p expf jj F) p.sm, F)
  | _, _, _, _, _, _, _ => none

/-- The backward time march of `european_price`: time indices
`jj, jj - 1, ..., 1`. -/
def euroMarch (p : Params) (expf : ℚ → ℚ) : ℕ → ((ℕ → ℕ → ℚ) × (ℕ → ℚ)) →
    Option ((ℕ → ℕ → ℚ) × (ℕ → ℚ))
  | 0, st => some st
  | jj + 1, st => (euroStep p expf (jj + 1) st).bind (euroMarch p expf jj)

/-- The exercise payoff the American iteration clamps with, at interior node
index `j` (spot `S = (j + 1) * dS`): `max(contract_type * (S - K), 0)`. -/
def payoffAt (p : Params) (j : ℕ) : ℚ :=
  max ((p.ct : ℚ) * (((j : ℚ) + 1) * dSstep p - p.K)) 0

/-- One projected-SOR sweep of `american_price` (the documented variant):
node 0 has no subdiagonal term, middle nodes use the value `F_tmp[j-1]`
already updated in this sweep (Gauss-Seidel), the last node `sm - 2` has no
superdiagonal term, and every node is clamped from below by the exercise
payoff. -/
def sorSweep (p : Params) (a b c RHS F : ℕ → ℚ) : ℕ → ℚ
  | 0 => max (payoffAt p 0)
      (F 0 + p.w / (1 - b 0) * (RHS 0 - (1 - b 0) * F 0 + c 0 * F 1))
  | ii + 1 =>
    if ii + 1 < p.sm - 2 then
      max (payoffAt p (ii + 1))
        (F (ii + 1) + p.w / (1 - b (ii + 1)) *
          (RHS (ii + 1) + a ii * sorSweep p a b c RHS F ii -
            (1 - b (ii + 1)) * F (ii + 1) + c (ii + 1) * F (ii + 2)))
    else if ii + 1 = p.sm - 2 then
      max (payoffAt p (ii + 1))
        (F (ii + 1) + p.w / (1 - b (ii + 1)) *
          (RHS (ii + 1) + a ii * sorSweep p a b c RHS F ii -
            (1 - b (ii + 1)) * F (ii + 1)))
    else 0

/-- The `while (error > tol_)` SOR loop of `american_price`, with explicit
fuel standing for the absent iteration cap (`none` models non-termination
within the given fuel).  The stored quantity is the squared norm; the
condition `tol < 0 ∨ tol * tol < err` is `sqrt err > tol` (see file
header). -/
def sorLoop (p : Params) (a b c RHS : ℕ → ℚ) : ℕ → (ℕ → ℚ) → ℚ → Option (ℕ → ℚ)
  | 0, F, err => if p.tol < 0 ∨ p.tol * p.tol < err then none else some F
  | fuel + 1, F, err =>
    if p.tol < 0 ∨ p.tol * p.tol < err then
      sorLoop p a b c RHS fuel (sorSweep p a b c RHS F)
        (normSq (vecSub F (sorSweep p a b c RHS F)) (p.sm - 1))
    else some F

/-- The successive SOR iterates within one time step: `F_0` is the incoming
vector and `F_{k+1}` is one sweep applied to `F_k`. -/
def sweepIter (p : Params) (a b c RHS F0 : ℕ → ℚ) : ℕ → (ℕ → ℚ)
  | 0 => F0
  | k + 1 => sorSweep p a b c RHS (sweepIter p a b c RHS F0 k)

/-- The squared error sequence of the SOR loop: the initial `error = 1e6`
(squared, `10^12`), then `‖F_k - F_{k+1}‖²`. -/
def errSeq (p : Params) (a b c RHS F0 : ℕ → ℚ) : ℕ → ℚ
  | 0 => 10 ^ 12
  | k + 1 => normSq (vecSub (sweepIter p a b c RHS F0 k) (sweepIter p a b c RHS F0 (k + 1)))
      (p.sm - 1)

/-- The column written by one `american_price` step at time index `jj`:
row `0` is `F0`, rows `1..sm-1` the converged interior vector, row `sm` is
`(FM - K)` for calls and `0` for puts. -/
def amColVec (p : Params) (F : ℕ → ℚ) : ℕ → ℚ := fun z =>
  if z = 0 then F0of p
  else if z < p.sm then F (z - 1)
  else if p.ct = 1 then FMof p - p.K
  else 0

/-- One iteration of the `american_price` loop at time index `jj`. -/
def amStep (p : Params) (expf : ℚ → ℚ) (fuel : ℕ) (jj : ℕ) (st : (ℕ → ℕ → ℚ) × (ℕ → ℚ)) :
    Option ((ℕ → ℕ → ℚ) × (ℕ → ℚ)) :=
  match compute_aj p jj, compute_bj p jj, compute_cj p jj, compute_Kpair p expf jj with
  | some a, some b, some c, some Kp =>
    (sorLoop p a b c (rhsOf (compute_D a b c) (p.sm - 1) st.2 Kp) fuel st.2 (10 ^ 12)).map
      (fun F => (writeCol st.1 (jj - 1) (amColVec p F) p.sm, F))
  | _, _, _, _ => none

/-- The backward time march of `american_price`. -/
def amMarch (p : Params) (expf : ℚ → ℚ) (fuel : ℕ) : ℕ → ((ℕ → ℕ → ℚ) × (ℕ → ℚ)) →
    Option ((ℕ → ℕ → ℚ) × (ℕ → ℚ))
  | 0, st => some st
  | jj + 1, st => (amStep p expf fuel (jj + 1) st).bind (amMarch p expf fuel jj)

/-- Terminal payoff row values set by `Option::solve`:
`grid[ii][tm-1] = max(contract_type * (ii * dS - K), 0)`. -/
def terminalVec (p : Params) : ℕ → ℚ := fun ii =>
  max ((p.ct : ℚ) * ((ii : ℚ) * dSstep p - p.K)) 0

/-- The zero-initialized grid with the terminal payoff written into column
`tm - 1` (`create_grid` followed by the terminal loop of `Option::solve`). -/
def initGrid (p : Params) : ℕ → ℕ → ℚ :=
  writeCol (fun _ _ => 0) (p.tm - 1) (terminalVec p) p.sm

/-- The initial interior vector `F` (`F[ii-1] = grid[ii][tm-1]`). -/
def initF (p : Params) : ℕ → ℚ := fun k => terminalVec p (k + 1)

/-- The spot index read by `Option::price`:
`std::round(S0 / dS)` converted to an unsigned index. -/
def priceIdx (p : Params) : ℕ := (roundQ (p.S0 / dSstep p)).toNat

/-- The backward march performed by `Option::solve` after the terminal
payoff: `european_price` when `exercise_type` is nonzero, else
`american_price`. -/
def marchResult (p : Params) (expf : ℚ → ℚ) (fuel : ℕ) :
    Option ((ℕ → ℕ → ℚ) × (ℕ → ℚ)) :=
  if p.et ≠ 0 then euroMarch p expf (p.tm - 1) (initGrid p, initF p)
  else amMarch p expf fuel (p.tm - 1) (initGrid p, initF p)

/-- Construction of an `Option` followed by `price()`: validate, fill the
grid by the backward march, and read `grid[round(S0/dS)][0]`.  `none` models
a thrown exception (or SOR fuel exhaustion). -/
def priceOf (p : Params) (expf : ℚ → ℚ) (fuel : ℕ) : Option ℚ :=
  match validate p with
  | .error _ => none
  | .ok _ => (marchResult p expf fuel).map (fun st => st.1 (priceIdx p) 0)

/-- Result of an IEEE double division: finite value, infinity (x/0 with
x ≠ 0), or NaN (0/0). -/
inductive DivRes where
  | val (q : ℚ)
  | inf
  | nan
deriving DecidableEq

/-- IEEE division model on exact rationals. -/
def divD (a b : ℚ) : DivRes :=
  if b = 0 then (if a = 0 then .nan else .inf) else .val (a / b)

/-- The curve perturbation of `Option::rho`: add `s` to every control rate. -/
def shiftCurve (ir : List (ℚ × ℚ)) (s : ℚ) : List (ℚ × ℚ) :=
  ir.map (fun e => (e.1, e.2 + s))

/-- Value `ir_tmp[0].second`: the rate of the first control point. -/
def firstRate (ir : List (ℚ × ℚ)) : ℚ := ir.headI.2

/-- The parameters of the temporary option constructed by `Option::rho`: the
shifted curve, and the constructor defaults `tol = 0.01`, `w = 1.2` (the
source passes neither). -/
def rhoParams (p : Params) (h : ℚ) : Params :=
  { p with ir := shiftCurve p.ir (h * firstRate p.ir), tol := 1 / 100, w := 6 / 5 }

/-- Embedding of `Option::rho(h)`: reprice with the shifted curve and divide the price
difference by `shift = h * ir_tmp[0].second`.  The outer `Option` propagates
exceptions of either pricing; the `DivRes` is the IEEE division. -/
def rho (p : Params) (expf : ℚ → ℚ) (fuel : ℕ) (h : ℚ) : Option DivRes :=
  match priceOf p expf fuel, priceOf (rhoParams p h) expf fuel with
  | some pr, some pr' => some (divD (pr' - pr) (h * firstRate p.ir))
  | _, _ => none

/-- Predicate for `sqrt s ≤ t` expressed on the squared quantity `s ≥ 0`: the negation of
the loop-continuation condition of `sorLoop`. -/
def sqrtLE (s t : ℚ) : Prop := 0 ≤ t ∧ s ≤ t * t

/-- A concrete American put (`tol = 2e6`, so the SOR loop exits without any
sweep) whose rate curve starts with rate `0`; used to study `Option::rho`. -/
def pAmZero : Params := ⟨-1, 0, 1/1000, 2, 0, 2, 3, 1, [(0, 0), (10, 0)], 1/2, 2 * 10 ^ 6, 6/5⟩

/-- The reprice configuration `Option::rho` builds from `pAmZero`: same curve
(the shift is zero), default `tol = 0.01` and `w = 1.2`. -/
def pAmZero2 : Params := ⟨-1, 0, 1/1000, 2, 0, 2, 3, 1, [(0, 0), (10, 0)], 1/2, 1/100, 6/5⟩

/-- A concrete European call with first control rate `0` and non-default
`tol`/`w`; its price ignores both. -/
def pEuroW : Params := ⟨1, 1, 1, 1, 0, 1, 2, 1, [(0, 0), (1, 0)], 1/4, 7, 9⟩

/-! ## Helper lemmas on sorted curves -/

theorem SortedTimes.tail {x : ℚ × ℚ} {l : List (ℚ × ℚ)} (h : SortedTimes (x :: l)) :
    SortedTimes l := by
  cases h with
  | single _ => exact SortedTimes.nil
  | cons _ h2 => exact h2

theorem SortedTimes.head_lt_mem {x y : ℚ × ℚ} {l : List (ℚ × ℚ)}
    (h : SortedTimes (x :: l)) (hy : y ∈ l) : x.1 < y.1 := by
  induction l generalizing x with
  | nil => cases hy
  | cons b tl ih =>
    cases h with
    | cons hxb htl =>
      rcases List.mem_cons.mp hy with rfl | hy'
      · exact hxb
      · exact lt_trans hxb (ih htl hy')

theorem lastTime_cons_cons (p q : ℚ × ℚ) (rs : List (ℚ × ℚ)) :
    lastTime (p :: q :: rs) = lastTime (q :: rs) := by
  simp [lastTime, List.getLastD_cons]

theorem lastTime_pair (p q : ℚ × ℚ) : lastTime [p, q] = q.1 := by
  simp [lastTime]

theorem head_time_le_lastTime : ∀ (l : List (ℚ × ℚ)) (a : ℚ × ℚ),
    SortedTimes (a :: l) → a.1 ≤ lastTime (a :: l) := by
  intro l
  induction l with
  | nil => intro a _; simp [lastTime]
  | cons b ts ih =>
    intro a hs
    rw [lastTime_cons_cons]
    cases hs with
    | cons hab htl => exact le_trans (le_of_lt hab) (ih b htl)

theorem mem_time_le_lastTime {y : ℚ × ℚ} {l : List (ℚ × ℚ)}
    (hs : SortedTimes l) (hy : y ∈ l) : y.1 ≤ lastTime l := by
  induction l with
  | nil => cases hy
  | cons a tl ih =>
    rcases List.mem_cons.mp hy with rfl | hy'
    · exact head_time_le_lastTime tl y hs
    · cases tl with
      | nil => cases hy'
      | cons b ts =>
        rw [lastTime_cons_cons]
        exact ih hs.tail hy'

theorem AdjIn.mem_left {p q : ℚ × ℚ} {l : List (ℚ × ℚ)} (h : AdjIn p q l) : p ∈ l := by
  induction h with
  | head _ _ _ => exact List.mem_cons_self _ _
  | tail x _ ih => exact List.mem_cons_of_mem x ih

theorem AdjIn.mem_right {p q : ℚ × ℚ} {l : List (ℚ × ℚ)} (h : AdjIn p q l) : q ∈ l := by
  induction h with
  | head _ _ _ => exact List.mem_cons_of_mem _ (List.mem_cons_self _ _)
  | tail x _ ih => exact List.mem_cons_of_mem x ih

theorem AdjIn.lt {p q : ℚ × ℚ} {l : List (ℚ × ℚ)} (hs : SortedTimes l) (h : AdjIn p q l) :
    p.1 < q.1 := by
  induction h with
  | head _ _ _ =>
    cases hs with
    | cons h1 _ => exact h1
  | tail x h' ih => exact ih hs.tail

theorem adjIn_of_suffix {p q : ℚ × ℚ} {l L : List (ℚ × ℚ)}
    (hsuf : l <:+ L) (h : AdjIn p q l) : AdjIn p q L := by
  obtain ⟨t, rfl⟩ := hsuf
  induction t with
  | nil => exact h
  | cons x ts ih => exact AdjIn.tail x ih

/-! ## Evaluation lemmas for the rate curve -/

theorem evalIR_in : ∀ (rest : List (ℚ × ℚ)) (p0 p1 : ℚ × ℚ),
    SortedTimes (p0 :: p1 :: rest) → ∀ t : ℚ, p0.1 ≤ t → t ≤ lastTime (p0 :: p1 :: rest) →
    ∃ p q, AdjIn p q (p0 :: p1 :: rest) ∧ p.1 ≤ t ∧ t ≤ q.1 ∧
      evalIR (p0 :: p1 :: rest) t =
        some (((t - p.1) * q.2 + (q.1 - t) * p.2) / (q.1 - p.1)) := by
  intro rest
  induction rest with
  | nil =>
    intro p0 p1 hs t ht0 ht1
    rw [lastTime_pair] at ht1
    exact ⟨p0, p1, AdjIn.head _ _ _, ht0, ht1, by simp [evalIR, ht0, ht1]⟩
  | cons r rs ih =>
    intro p0 p1 hs t ht0 ht1
    by_cases hseg : t ≤ p1.1
    · refine ⟨p0, p1, AdjIn.head _ _ _, ht0, hseg, ?_⟩
      simp [evalIR, ht0, hseg]
    · push_neg at hseg
      rw [lastTime_cons_cons] at ht1
      obtain ⟨p, q, hadj, h1, h2, h3⟩ := ih p1 r hs.tail t (le_of_lt hseg) ht1
      refine ⟨p, q, AdjIn.tail _ hadj, h1, h2, ?_⟩
      rw [show evalIR (p0 :: p1 :: r :: rs) t = evalIR (p1 :: r :: rs) t from ?_, h3]
      simp only [evalIR]
      rw [if_neg]
      intro hc
      exact absurd hc.2 (not_le.mpr hseg)

theorem evalIR_below : ∀ (l : List (ℚ × ℚ)) (x : ℚ × ℚ), SortedTimes (x :: l) →
    ∀ t : ℚ, t < x.1 → evalIR (x :: l) t = none := by
  intro l
  induction l with
  | nil => intro x _ t _; rfl
  | cons b ts ih =>
    intro x hs t ht
    have hb : t < b.1 := lt_trans ht (hs.head_lt_mem (List.mem_cons_self b ts))
    simp only [evalIR]
    rw [if_neg, ih b hs.tail t hb]
    intro hc
    exact absurd hc.1 (not_le.mpr ht)

theorem evalIR_above : ∀ (pts : List (ℚ × ℚ)), SortedTimes pts →
    ∀ t : ℚ, lastTime pts < t → evalIR pts t = none := by
  intro pts
  induction pts with
  | nil => intro _ t _; rfl
  | cons a tl ih =>
    intro hs t ht
    cases tl with
    | nil => rfl
    | cons b ts =>
      rw [lastTime_cons_cons] at ht
      have hb : b.1 ≤ lastTime (b :: ts) :=
        mem_time_le_lastTime hs.tail (List.mem_cons_self b ts)
      simp only [evalIR]
      rw [if_neg, ih hs.tail t ht]
      intro hc
      exact absurd hc.2 (not_le.mpr (lt_of_le_of_lt hb ht))

theorem evalIR_adj : ∀ (pts : List (ℚ × ℚ)), SortedTimes pts →
    ∀ p q : ℚ × ℚ, AdjIn p q pts → ∀ t : ℚ, p.1 ≤ t → t ≤ q.1 →
    evalIR pts t = some (interp p q t) := by
  intro pts
  induction pts with
  | nil => intro _ p q hadj; cases hadj
  | cons a tl ih =>
    intro hs p q hadj t ht0 ht1
    cases hadj with
    | head _ _ _ => simp [evalIR, interp, ht0, ht1]
    | tail _ hadj' =>
      cases tl with
      | nil => cases hadj'
      | cons b ts =>
        by_cases hcond : a.1 ≤ t ∧ t ≤ b.1
        · have hpb : p = b := by
            rcases List.mem_cons.mp hadj'.mem_left with h | h
            · exact h
            · exact absurd (lt_of_le_of_lt (le_trans ht0 hcond.2)
                (hs.tail.head_lt_mem h)) (lt_irrefl _)
          subst hpb
          have htb : t = p.1 := le_antisymm hcond.2 ht0
          have hab : a.1 < p.1 := by
            cases hs with
            | cons h1 _ => exact h1
          have hpq : p.1 < q.1 := hadj'.lt hs.tail
          subst htb
          have e1 : interp a p p.1 = p.2 := by
            unfold interp
            field_simp [sub_ne_zero.mpr (ne_of_gt hab)]
          have e2 : interp p q p.1 = p.2 := by
            unfold interp
            field_simp [sub_ne_zero.mpr (ne_of_gt hpq)]
          simp only [evalIR, if_pos hcond]
          rw [e2, show ((p.1 - a.1) * p.2 + (p.1 - p.1) * a.2) / (p.1 - a.1) = interp a p p.1 from rfl, e1]
        · simp only [evalIR, if_neg hcond]
          exact ih hs.tail p q hadj' t ht0 ht1

/-- C5: for a rate curve with strictly increasing times and at least two
control points, `InterestRate::operator()` returns the linear interpolation
between two adjacent bracketing control points whenever `t` lies in
`[t_min, t_max]`, and throws `InvalidTime` (modelled `none`; no clamping, no
extrapolation) whenever `t` lies outside `[t_min, t_max]`. -/
theorem interestRate_eval_c5 (pts : List (ℚ × ℚ)) (hs : SortedTimes pts)
    (p0 p1 : ℚ × ℚ) (rest : List (ℚ × ℚ)) (hpts : pts = p0 :: p1 :: rest) (t : ℚ) :
    (p0.1 ≤ t ∧ t ≤ lastTime pts →
      ∃ p q, AdjIn p q pts ∧ p.1 ≤ t ∧ t ≤ q.1 ∧
        evalIR pts t = some (((t - p.1) * q.2 + (q.1 - t) * p.2) / (q.1 - p.1))) ∧
    (t < p0.1 ∨ lastTime pts < t → evalIR pts t = none) := by
  subst hpts
  constructor
  · intro h
    exact evalIR_in rest p0 p1 hs t h.1 h.2
  · intro h
    rcases h with h | h
    · exact evalIR_below (p1 :: rest) p0 hs t h
    · exact evalIR_above (p0 :: p1 :: rest) hs t h

theorem interestRate_eval_c5_witness :
    SortedTimes [((0 : ℚ), (1 : ℚ)/10), ((2 : ℚ), (3 : ℚ)/10)] ∧
    ((0 : ℚ), (1 : ℚ)/10).1 ≤ 1 ∧ (1 : ℚ) ≤ lastTime [((0 : ℚ), (1 : ℚ)/10), ((2 : ℚ), (3 : ℚ)/10)] ∧
    (∃ p q, AdjIn p q [((0 : ℚ), (1 : ℚ)/10), ((2 : ℚ), (3 : ℚ)/10)] ∧ p.1 ≤ 1 ∧ (1 : ℚ) ≤ q.1 ∧
      evalIR [((0 : ℚ), (1 : ℚ)/10), ((2 : ℚ), (3 : ℚ)/10)] 1 =
        some (((1 - p.1) * q.2 + (q.1 - 1) * p.2) / (q.1 - p.1))) ∧
    evalIR [((0 : ℚ), (1 : ℚ)/10), ((2 : ℚ), (3 : ℚ)/10)] 3 = none := by
  have hs : SortedTimes [((0 : ℚ), (1 : ℚ)/10), ((2 : ℚ), (3 : ℚ)/10)] :=
    SortedTimes.cons (by norm_num) (SortedTimes.single _)
  refine ⟨hs, by norm_num, by norm_num [lastTime], ?_, ?_⟩
  · exact (interestRate_eval_c5 _ hs _ _ _ rfl 1).1
      ⟨by norm_num, by norm_num [lastTime]⟩
  · exact (interestRate_eval_c5 _ hs _ _ _ rfl 3).2
      (Or.inr (by norm_num [lastTime]))

theorem suffix_of_cons_suffix {x : ℚ × ℚ} {l L : List (ℚ × ℚ)}
    (h : (x :: l) <:+ L) : l <:+ L :=
  List.IsSuffix.trans (List.suffix_cons x l) h

theorem findSeg_bracket {p q : ℚ × ℚ} {rest : List (ℚ × ℚ)} {t0 : ℚ}
    (h1 : p.1 ≤ t0) (h2 : t0 ≤ q.1) : findSeg (p :: q :: rest) t0 = p :: q :: rest := by
  unfold findSeg
  rw [if_pos ⟨h1, h2⟩]

theorem findSeg_step {p q r : ℚ × ℚ} {rs : List (ℚ × ℚ)} {t0 : ℚ}
    (h : ¬(p.1 ≤ t0 ∧ t0 ≤ q.1)) :
    findSeg (p :: q :: r :: rs) t0 = findSeg (q :: r :: rs) t0 := by
  conv_lhs => unfold findSeg
  rw [if_neg h]

theorem integralLoop_here (pts : List (ℚ × ℚ)) (hs : SortedTimes pts)
    (p q : ℚ × ℚ) (rest : List (ℚ × ℚ)) (hsuf : (p :: q :: rest) <:+ pts)
    (tf : ℚ) (h0 : p.1 ≤ tf) (hf : tf ≤ q.1) :
    integralLoop pts (p :: q :: rest) tf = some (cum (p :: q :: rest) tf) := by
  have hadj : AdjIn p q pts := adjIn_of_suffix hsuf (AdjIn.head p q rest)
  rw [show cum (p :: q :: rest) tf = (p.2 + interp p q tf) * (tf - p.1) / 2 from by
    simp only [cum, if_pos hf]]
  simp only [integralLoop, if_pos (And.intro h0 hf),
    evalIR_adj pts hs p q hadj tf h0 hf, Option.map_some']
  exact congrArg some (by ring)

theorem integralLoop_cum (pts : List (ℚ × ℚ)) (hs : SortedTimes pts) :
    ∀ (rest : List (ℚ × ℚ)) (p q : ℚ × ℚ), (p :: q :: rest) <:+ pts →
    ∀ tf : ℚ, p.1 ≤ tf → tf ≤ lastTime (p :: q :: rest) →
    integralLoop pts (p :: q :: rest) tf = some (cum (p :: q :: rest) tf) := by
  intro rest
  induction rest with
  | nil =>
    intro p q hsuf tf h0 h1
    rw [lastTime_pair] at h1
    exact integralLoop_here pts hs p q [] hsuf tf h0 h1
  | cons r rs ih =>
    intro p q hsuf tf h0 h1
    by_cases hf : tf ≤ q.1
    · exact integralLoop_here pts hs p q (r :: rs) hsuf tf h0 hf
    · push_neg at hf
      rw [lastTime_cons_cons] at h1
      have hrec := ih q r (suffix_of_cons_suffix hsuf) tf (le_of_lt hf) h1
      rw [show cum (p :: q :: r :: rs) tf =
          (p.2 + q.2) * (q.1 - p.1) / 2 + cum (q :: r :: rs) tf from by
        simp only [cum, if_neg (not_le.mpr hf)]]
      rw [integralLoop,
        if_neg (show ¬(p.1 ≤ tf ∧ tf ≤ q.1) from fun hc => absurd hc.2 (not_le.mpr hf)),
        hrec, Option.map_some']

theorem integralOn_here (pts : List (ℚ × ℚ)) (hs : SortedTimes pts)
    (p q : ℚ × ℚ) (rest : List (ℚ × ℚ)) (hsuf : (p :: q :: rest) <:+ pts)
    (t0 tf : ℚ) (h0 : p.1 ≤ t0) (h01 : t0 ≤ tf) (hfq : tf ≤ q.1) :
    integralOn pts (p :: q :: rest) t0 tf =
      some (cum (p :: q :: rest) tf - cum (p :: q :: rest) t0) := by
  have h0q : t0 ≤ q.1 := le_trans h01 hfq
  have hadj : AdjIn p q pts := adjIn_of_suffix hsuf (AdjIn.head p q rest)
  have hne : q.1 - p.1 ≠ 0 := sub_ne_zero.mpr (ne_of_gt (hadj.lt hs))
  rw [integralOn, findSeg_bracket h0 h0q]
  rw [show cum (p :: q :: rest) tf = (p.2 + interp p q tf) * (tf - p.1) / 2 from by
    simp only [cum, if_pos hfq]]
  rw [show cum (p :: q :: rest) t0 = (p.2 + interp p q t0) * (t0 - p.1) / 2 from by
    simp only [cum, if_pos h0q]]
  simp only [integralBody, if_pos hfq,
    evalIR_adj pts hs p q hadj t0 h0 h0q,
    evalIR_adj pts hs p q hadj tf (le_trans h0 h01) hfq]
  refine congrArg some ?_
  unfold interp
  field_simp
  ring

theorem integralOn_repr (pts : List (ℚ × ℚ)) (hs : SortedTimes pts) :
    ∀ (rest : List (ℚ × ℚ)) (p q : ℚ × ℚ), (p :: q :: rest) <:+ pts →
    ∀ t0 tf : ℚ, p.1 ≤ t0 → t0 ≤ tf → tf ≤ lastTime (p :: q :: rest) →
    integralOn pts (p :: q :: rest) t0 tf =
      some (cum (p :: q :: rest) tf - cum (p :: q :: rest) t0) := by
  intro rest
  induction rest with
  | nil =>
    intro p q hsuf t0 tf h0 h01 h1
    rw [lastTime_pair] at h1
    exact integralOn_here pts hs p q [] hsuf t0 tf h0 h01 h1
  | cons r rs ih =>
    intro p q hsuf t0 tf h0 h01 h1
    rw [lastTime_cons_cons] at h1
    by_cases h0q : t0 ≤ q.1
    · by_cases hfq : tf ≤ q.1
      · exact integralOn_here pts hs p q (r :: rs) hsuf t0 tf h0 h01 hfq
      · push_neg at hfq
        have hadj : AdjIn p q pts := adjIn_of_suffix hsuf (AdjIn.head p q (r :: rs))
        have hne : q.1 - p.1 ≠ 0 := sub_ne_zero.mpr (ne_of_gt (hadj.lt hs))
        have hloop := integralLoop_cum pts hs rs q r (suffix_of_cons_suffix hsuf) tf
          (le_of_lt hfq) h1
        rw [integralOn, findSeg_bracket h0 h0q]
        rw [show cum (p :: q :: r :: rs) tf =
            (p.2 + q.2) * (q.1 - p.1) / 2 + cum (q :: r :: rs) tf from by
          simp only [cum, if_neg (not_le.mpr hfq)]]
        rw [show cum (p :: q :: r :: rs) t0 = (p.2 + interp p q t0) * (t0 - p.1) / 2 from by
          simp only [cum, if_pos h0q]]
        simp only [integralBody, if_neg (not_le.mpr hfq),
          evalIR_adj pts hs p q hadj t0 h0 h0q, hloop]
        refine congrArg some ?_
        unfold interp
        field_simp
        ring
    · push_neg at h0q
      have hstep : integralOn pts (p :: q :: r :: rs) t0 tf =
          integralOn pts (q :: r :: rs) t0 tf := by
        rw [integralOn, integralOn,
          findSeg_step (fun hc => absurd hc.2 (not_le.mpr h0q))]
      have hfq : ¬ tf ≤ q.1 := not_le.mpr (lt_of_lt_of_le h0q h01)
      rw [hstep, ih q r (suffix_of_cons_suffix hsuf) t0 tf (le_of_lt h0q) h01 h1]
      rw [show cum (p :: q :: r :: rs) tf =
          (p.2 + q.2) * (q.1 - p.1) / 2 + cum (q :: r :: rs) tf from by
        simp only [cum, if_neg hfq]]
      rw [show cum (p :: q :: r :: rs) t0 =
          (p.2 + q.2) * (q.1 - p.1) / 2 + cum (q :: r :: rs) t0 from by
        simp only [cum, if_neg (not_le.mpr h0q)]]
      exact congrArg some (by ring)

/-- C8: for every rate curve with strictly increasing times and at least two
control points, the trapezoid integral `InterestRate::integral(t0, tf)`
(part_009) satisfies additivity `∫[t0,t1] + ∫[t1,t2] = ∫[t0,t2]` exactly, for
all `t0 < t1 < t2` inside the curve's domain. -/
theorem rateIntegral_additivity_c8 (pts : List (ℚ × ℚ)) (hs : SortedTimes pts)
    (p0 p1 : ℚ × ℚ) (rest : List (ℚ × ℚ)) (hpts : pts = p0 :: p1 :: rest)
    (t0 t1 t2 : ℚ) (h0 : p0.1 ≤ t0) (h01 : t0 < t1) (h12 : t1 < t2)
    (h2 : t2 ≤ lastTime pts) :
    ∃ v01 v12 v02, integralIR pts t0 t1 = some v01 ∧ integralIR pts t1 t2 = some v12 ∧
      integralIR pts t0 t2 = some v02 ∧ v01 + v12 = v02 := by
  subst hpts
  have hsuf : (p0 :: p1 :: rest) <:+ (p0 :: p1 :: rest) := List.suffix_refl _
  have e01 := integralOn_repr _ hs rest p0 p1 hsuf t0 t1 h0 h01.le (le_trans h12.le h2)
  have e12 := integralOn_repr _ hs rest p0 p1 hsuf t1 t2 (le_trans h0 h01.le) h12.le h2
  have e02 := integralOn_repr _ hs rest p0 p1 hsuf t0 t2 h0 (le_trans h01.le h12.le) h2
  exact ⟨_, _, _, e01, e12, e02, by ring⟩

theorem rateIntegral_additivity_c8_witness :
    SortedTimes [((0 : ℚ), (0 : ℚ)), ((2 : ℚ), (2 : ℚ)), ((4 : ℚ), (2 : ℚ))] ∧
    ((0 : ℚ), (0 : ℚ)).1 ≤ 1 ∧ (1 : ℚ) < 3 ∧ (3 : ℚ) < 4 ∧
    (4 : ℚ) ≤ lastTime [((0 : ℚ), (0 : ℚ)), ((2 : ℚ), (2 : ℚ)), ((4 : ℚ), (2 : ℚ))] ∧
    (∃ v01 v12 v02,
      integralIR [((0 : ℚ), (0 : ℚ)), ((2 : ℚ), (2 : ℚ)), ((4 : ℚ), (2 : ℚ))] 1 3 = some v01 ∧
      integralIR [((0 : ℚ), (0 : ℚ)), ((2 : ℚ), (2 : ℚ)), ((4 : ℚ), (2 : ℚ))] 3 4 = some v12 ∧
      integralIR [((0 : ℚ), (0 : ℚ)), ((2 : ℚ), (2 : ℚ)), ((4 : ℚ), (2 : ℚ))] 1 4 = some v02 ∧
      v01 + v12 = v02) := by
  have hs : SortedTimes [((0 : ℚ), (0 : ℚ)), ((2 : ℚ), (2 : ℚ)), ((4 : ℚ), (2 : ℚ))] :=
    SortedTimes.cons (by norm_num) (SortedTimes.cons (by norm_num) (SortedTimes.single _))
  refine ⟨hs, by norm_num, by norm_num, by norm_num, by norm_num [lastTime], ?_⟩
  exact rateIntegral_additivity_c8 _ hs _ _ _ rfl 1 3 4 (by norm_num) (by norm_num)
    (by norm_num) (by norm_num [lastTime])

/-! ## LU solver lemmas -/

theorem upperSolve_last (d sup b : ℕ → ℚ) (n : ℕ) :
    upperSolve d sup b n (n - 1) = b (n - 1) / d (n - 1) := by
  unfold upperSolve
  rw [Nat.sub_self]
  rfl

theorem upperSolve_step (d sup b : ℕ → ℚ) (n i : ℕ) (hi : i + 1 ≤ n - 1) :
    upperSolve d sup b n i = (b i - sup i * upperSolve d sup b n (i + 1)) / d i := by
  unfold upperSolve
  rw [show n - 1 - i = (n - 1 - (i + 1)) + 1 from by omega]
  simp only [upperSolveAux]
  rw [show n - 1 - (n - 1 - (i + 1) + 1) = i from by omega]

theorem applyLow_lowerSolve (sub d b : ℕ → ℚ) (hd : ∀ i, d i ≠ 0) (i : ℕ) :
    applyLow sub d (lowerSolve sub d b) i = b i := by
  cases i with
  | zero =>
    simp only [applyLow, lowerSolve]
    field_simp [hd 0]
  | succ k =>
    simp only [applyLow, lowerSolve]
    field_simp [hd (k + 1)]

theorem applyUp_upperSolve (d sup b : ℕ → ℚ) (n : ℕ) (hd : ∀ i, i < n → d i ≠ 0) :
    ∀ i, i < n → applyUp d sup (upperSolve d sup b n) n i = b i := by
  intro i hi
  by_cases hlast : i + 1 = n
  · have hieq : i = n - 1 := by omega
    unfold applyUp
    rw [if_neg (by omega), hieq, upperSolve_last]
    field_simp [hd (n - 1) (by omega)]
  · have hi1 : i + 1 ≤ n - 1 := by omega
    unfold applyUp
    rw [if_pos (by omega), upperSolve_step d sup b n i hi1]
    field_simp [hd i hi]

theorem applyLow_ones_inj (sub z : ℕ → ℚ) (n : ℕ)
    (hz : ∀ i, i < n → applyLow sub onesVec z i = 0) : ∀ i, i < n → z i = 0 := by
  intro i
  induction i with
  | zero =>
    intro hi
    have h := hz 0 hi
    simpa [applyLow, onesVec] using h
  | succ k ih =>
    intro hi
    have hk := ih (by omega)
    have h := hz (k + 1) hi
    simp only [applyLow, onesVec, one_mul] at h
    rw [hk, mul_zero, zero_add] at h
    exact h

theorem applyUp_inj (d sup z : ℕ → ℚ) (n : ℕ) (hd : ∀ i, i < n → d i ≠ 0)
    (hz : ∀ i, i < n → applyUp d sup z n i = 0) : ∀ i, i < n → z i = 0 := by
  suffices h : ∀ j i, i < n → n - 1 - i = j → z i = 0 by
    intro i hi
    exact h (n - 1 - i) i hi rfl
  intro j
  induction j with
  | zero =>
    intro i hi hji
    have hlast : ¬ (i + 1 < n) := by omega
    have h := hz i hi
    rw [applyUp, if_neg hlast] at h
    exact (mul_eq_zero.mp h).resolve_left (hd i hi)
  | succ j ih =>
    intro i hi hji
    have hnext : z (i + 1) = 0 := ih (i + 1) (by omega) (by omega)
    have h := hz i hi
    rw [applyUp, if_pos (by omega), hnext, mul_zero, add_zero] at h
    exact (mul_eq_zero.mp h).resolve_left (hd i hi)

theorem apply_eq_LU (A : Tridiag) (n : ℕ) (hn : 2 ≤ n) (x : ℕ → ℚ)
    (hpiv : ∀ i, i + 1 < n → A.pivots i ≠ 0) :
    ∀ i, i < n → A.apply n x i =
      applyLow A.lvec onesVec (applyUp A.pivots A.superdiag x n) i := by
  intro i hi
  by_cases h0 : i = 0
  · subst h0
    show _ = onesVec 0 * applyUp A.pivots A.superdiag x n 0
    rw [Tridiag.apply, if_pos rfl, applyUp, if_pos (by omega)]
    simp only [onesVec, one_mul]
    rw [show A.pivots 0 = A.diag 0 from rfl]
  · obtain ⟨k, rfl⟩ : ∃ k, i = k + 1 := ⟨i - 1, by omega⟩
    have hpivk : A.pivots k ≠ 0 := hpiv k (by omega)
    show _ = A.lvec k * applyUp A.pivots A.superdiag x n k +
      onesVec (k + 1) * applyUp A.pivots A.superdiag x n (k + 1)
    simp only [onesVec, one_mul]
    rw [applyUp, if_pos (by omega : k + 1 < n)]
    by_cases hlast : k + 1 + 1 = n
    · rw [Tridiag.apply, if_neg (by omega), if_pos hlast, applyUp,
        if_neg (by omega : ¬ (k + 1 + 1 < n))]
      simp only [Nat.add_sub_cancel]
      rw [show A.pivots (k + 1) =
          A.diag (k + 1) - A.subdiag k / A.pivots k * A.superdiag k from rfl]
      unfold Tridiag.lvec
      field_simp
      ring
    · rw [Tridiag.apply, if_neg (by omega), if_neg hlast, applyUp,
        if_pos (by omega : k + 1 + 1 < n)]
      simp only [Nat.add_sub_cancel]
      rw [show A.pivots (k + 1) =
          A.diag (k + 1) - A.subdiag k / A.pivots k * A.superdiag k from rfl]
      unfold Tridiag.lvec
      field_simp
      ring

theorem apply_sub (A : Tridiag) (n : ℕ) (x y : ℕ → ℚ) (i : ℕ) :
    A.apply n (vecSub x y) i = A.apply n x i - A.apply n y i := by
  unfold Tridiag.apply vecSub
  split_ifs <;> ring

theorem onesVec_ne_zero : ∀ i, onesVec i ≠ 0 := fun _ => one_ne_zero

theorem tridiag_solve_mul (A : Tridiag) (n : ℕ) (b : ℕ → ℚ) (hn : 2 ≤ n)
    (hpiv : ∀ i, i < n → A.pivots i ≠ 0) :
    ∀ i, i < n → A.apply n (A.solve n b) i = b i := by
  intro i hi
  rw [apply_eq_LU A n hn (A.solve n b) (fun k hk => hpiv k (by omega)) i hi]
  have hup : ∀ j, j < n → applyUp A.pivots A.superdiag (A.solve n b) n j =
      lowerSolve A.lvec onesVec b j :=
    applyUp_upperSolve A.pivots A.superdiag (lowerSolve A.lvec onesVec b) n hpiv
  cases i with
  | zero =>
    show onesVec 0 * applyUp A.pivots A.superdiag (A.solve n b) n 0 = b 0
    rw [hup 0 (by omega)]
    have h := applyLow_lowerSolve A.lvec onesVec b onesVec_ne_zero 0
    simpa [applyLow] using h
  | succ k =>
    show A.lvec k * applyUp A.pivots A.superdiag (A.solve n b) n k +
      onesVec (k + 1) * applyUp A.pivots A.superdiag (A.solve n b) n (k + 1) = b (k + 1)
    rw [hup k (by omega), hup (k + 1) hi]
    have h := applyLow_lowerSolve A.lvec onesVec b onesVec_ne_zero (k + 1)
    simpa [applyLow] using h

theorem tridiag_solve_unique (A : Tridiag) (n : ℕ) (b : ℕ → ℚ) (hn : 2 ≤ n)
    (hpiv : ∀ i, i < n → A.pivots i ≠ 0) (x : ℕ → ℚ)
    (hx : ∀ i, i < n → A.apply n x i = b i) : ∀ i, i < n → x i = A.solve n b i := by
  have hz0 : ∀ i, i < n → A.apply n (vecSub x (A.solve n b)) i = 0 := by
    intro i hi
    rw [apply_sub, hx i hi, tridiag_solve_mul A n b hn hpiv i hi, sub_self]
  have hfac : ∀ i, i < n →
      applyLow A.lvec onesVec (applyUp A.pivots A.superdiag (vecSub x (A.solve n b)) n) i = 0 := by
    intro i hi
    rw [← apply_eq_LU A n hn _ (fun k hk => hpiv k (by omega)) i hi]
    exact hz0 i hi
  have hupz := applyLow_ones_inj A.lvec _ n hfac
  have hzz := applyUp_inj A.pivots A.superdiag _ n hpiv hupz
  intro i hi
  have h := hzz i hi
  unfold vecSub at h
  linarith

/-- C2: for every tridiagonal system of size `n ≥ 2` whose LU pivots are all
nonzero, `Tridiag::solve(b)` returns the unique solution of `A·x = b`
(`A·solve(b) = b`, uniqueness on the first `n` entries), and in particular
`solve(apply(x))` reproduces `x`. -/
theorem tridiag_solve_c2 (A : Tridiag) (n : ℕ) (b : ℕ → ℚ) (hn : 2 ≤ n)
    (hpiv : ∀ i, i < n → A.pivots i ≠ 0) :
    (∀ i, i < n → A.apply n (A.solve n b) i = b i) ∧
    (∀ x : ℕ → ℚ, (∀ i, i < n → A.apply n x i = b i) →
      ∀ i, i < n → x i = A.solve n b i) ∧
    (∀ x : ℕ → ℚ, ∀ i, i < n → A.solve n (A.apply n x) i = x i) := by
  refine ⟨tridiag_solve_mul A n b hn hpiv, tridiag_solve_unique A n b hn hpiv, ?_⟩
  intro x i hi
  exact (tridiag_solve_unique A n (A.apply n x) hn hpiv x (fun j hj => rfl) i hi).symm

theorem tridiag_solve_c2_witness :
    (2 ≤ 2) ∧
    (∀ i, i < 2 → Tridiag.pivots ⟨fun _ => 1, fun _ => 4, fun _ => 1⟩ i ≠ 0) ∧
    ((∀ i, i < 2 →
        Tridiag.apply ⟨fun _ => 1, fun _ => 4, fun _ => 1⟩ 2
          (Tridiag.solve ⟨fun _ => 1, fun _ => 4, fun _ => 1⟩ 2 (fun i => (i : ℚ) + 1)) i =
          (i : ℚ) + 1) ∧
      (∀ x : ℕ → ℚ,
        (∀ i, i < 2 → Tridiag.apply ⟨fun _ => 1, fun _ => 4, fun _ => 1⟩ 2 x i = (i : ℚ) + 1) →
        ∀ i, i < 2 → x i =
          Tridiag.solve ⟨fun _ => 1, fun _ => 4, fun _ => 1⟩ 2 (fun i => (i : ℚ) + 1) i) ∧
      (∀ x : ℕ → ℚ, ∀ i, i < 2 →
        Tridiag.solve ⟨fun _ => 1, fun _ => 4, fun _ => 1⟩ 2
          (Tridiag.apply ⟨fun _ => 1, fun _ => 4, fun _ => 1⟩ 2 x) i = x i)) := by
  have hpiv : ∀ i, i < 2 →
      Tridiag.pivots (⟨fun _ => 1, fun _ => 4, fun _ => 1⟩ : Tridiag) i ≠ 0 := by
    intro i hi
    interval_cases i <;> norm_num [Tridiag.pivots]
  exact ⟨le_refl 2, hpiv,
    tridiag_solve_c2 ⟨fun _ => 1, fun _ => 4, fun _ => 1⟩ 2 (fun i => (i : ℚ) + 1)
      (le_refl 2) hpiv⟩

/-- C1: for every time index `i` and interior spot index `j ∈ 1..M-1`, the
Crank-Nicolson coefficient vectors built by `compute_aj`/`compute_bj`/
`compute_cj` carry `a_j = (Δt/4)(σ²j² - r_i j)`, `b_j = -(Δt/2)(σ²j² + r_i)`,
`c_j = (Δt/4)(σ²j² + r_i j)` with `r_i = rate(i·Δt)` (vector entry `j-2`
resp. `j-1`), and the assembled matrices are `C = Tridiag(-a, 1-b, -c)` and
`D = Tridiag(a, 1+b, c)` entry by entry. -/
theorem cn_coefficients_c1 (p : Params) (i j : ℕ) (r : ℚ)
    (hr : rateAt p i = some r) (hj1 : 1 ≤ j) (hj2 : j ≤ p.sm - 1) :
    compute_aj p i = some (ajF p r) ∧
    compute_bj p i = some (bjF p r) ∧
    compute_cj p i = some (cjF p r) ∧
    (2 ≤ j → ajF p r (j - 2) =
      dTstep p / 4 * (p.vol * p.vol * (j : ℚ) * (j : ℚ) - r * (j : ℚ))) ∧
    bjF p r (j - 1) = -(dTstep p / 2) * (p.vol * p.vol * (j : ℚ) * (j : ℚ) + r) ∧
    cjF p r (j - 1) = dTstep p / 4 * (p.vol * p.vol * (j : ℚ) * (j : ℚ) + r * (j : ℚ)) ∧
    (2 ≤ j → (compute_C (ajF p r) (bjF p r) (cjF p r)).subdiag (j - 2) =
      -(dTstep p / 4 * (p.vol * p.vol * (j : ℚ) * (j : ℚ) - r * (j : ℚ)))) ∧
    (compute_C (ajF p r) (bjF p r) (cjF p r)).diag (j - 1) =
      1 + dTstep p / 2 * (p.vol * p.vol * (j : ℚ) * (j : ℚ) + r) ∧
    (compute_C (ajF p r) (bjF p r) (cjF p r)).superdiag (j - 1) =
      -(dTstep p / 4 * (p.vol * p.vol * (j : ℚ) * (j : ℚ) + r * (j : ℚ))) ∧
    (2 ≤ j → (compute_D (ajF p r) (bjF p r) (cjF p r)).subdiag (j - 2) =
      dTstep p / 4 * (p.vol * p.vol * (j : ℚ) * (j : ℚ) - r * (j : ℚ))) ∧
    (compute_D (ajF p r) (bjF p r) (cjF p r)).diag (j - 1) =
      1 - dTstep p / 2 * (p.vol * p.vol * (j : ℚ) * (j : ℚ) + r) ∧
    (compute_D (ajF p r) (bjF p r) (cjF p r)).superdiag (j - 1) =
      dTstep p / 4 * (p.vol * p.vol * (j : ℚ) * (j : ℚ) + r * (j : ℚ)) := by
  have hcast2 : 2 ≤ j → ((j - 2 : ℕ) : ℚ) + 2 = (j : ℚ) := by
    intro h
    have h2 : (j - 2) + 2 = j := by omega
    calc ((j - 2 : ℕ) : ℚ) + 2 = (((j - 2) + 2 : ℕ) : ℚ) := by push_cast; ring
    _ = (j : ℚ) := by rw [h2]
  have hcast1 : ((j - 1 : ℕ) : ℚ) + 1 = (j : ℚ) := by
    have h2 : (j - 1) + 1 = j := by omega
    calc ((j - 1 : ℕ) : ℚ) + 1 = (((j - 1) + 1 : ℕ) : ℚ) := by push_cast; ring
    _ = (j : ℚ) := by rw [h2]
  have ha : 2 ≤ j → ajF p r (j - 2) =
      dTstep p / 4 * (p.vol * p.vol * (j : ℚ) * (j : ℚ) - r * (j : ℚ)) := by
    intro h2
    unfold ajF
    rw [hcast2 h2]
  have hb : bjF p r (j - 1) = -(dTstep p / 2) * (p.vol * p.vol * (j : ℚ) * (j : ℚ) + r) := by
    unfold bjF
    rw [hcast1]
  have hc : cjF p r (j - 1) =
      dTstep p / 4 * (p.vol * p.vol * (j : ℚ) * (j : ℚ) + r * (j : ℚ)) := by
    unfold cjF
    rw [hcast1]
  refine ⟨by rw [compute_aj, hr]; rfl, by rw [compute_bj, hr]; rfl,
    by rw [compute_cj, hr]; rfl, ha, hb, hc, ?_, ?_, ?_, ?_, ?_, ?_⟩
  · intro h2
    show (-1) * ajF p r (j - 2) = _
    rw [ha h2]
    ring
  · show 1 - bjF p r (j - 1) = _
    rw [hb]
    ring
  · show (-1) * cjF p r (j - 1) = _
    rw [hc]
    ring
  · intro h2
    show ajF p r (j - 2) = _
    rw [ha h2]
  · show 1 + bjF p r (j - 1) = _
    rw [hb]
    ring
  · show cjF p r (j - 1) = _
    rw [hc]

theorem cn_coefficients_c1_witness :
    rateAt ⟨1, 1, 1, 1, 0, 4, 5, 1, [(0, 1/10), (10, 1/10)], 1/4, 1/100, 6/5⟩ 1 =
      some (1/10) ∧ 1 ≤ 2 ∧ 2 ≤ (5 : ℕ) - 1 ∧
    compute_bj ⟨1, 1, 1, 1, 0, 4, 5, 1, [(0, 1/10), (10, 1/10)], 1/4, 1/100, 6/5⟩ 1 =
      some (bjF ⟨1, 1, 1, 1, 0, 4, 5, 1, [(0, 1/10), (10, 1/10)], 1/4, 1/100, 6/5⟩ (1/10)) ∧
    (compute_D (ajF ⟨1, 1, 1, 1, 0, 4, 5, 1, [(0, 1/10), (10, 1/10)], 1/4, 1/100, 6/5⟩ (1/10))
        (bjF ⟨1, 1, 1, 1, 0, 4, 5, 1, [(0, 1/10), (10, 1/10)], 1/4, 1/100, 6/5⟩ (1/10))
        (cjF ⟨1, 1, 1, 1, 0, 4, 5, 1, [(0, 1/10), (10, 1/10)], 1/4, 1/100, 6/5⟩ (1/10))).diag
        (2 - 1) =
      1 - dTstep ⟨1, 1, 1, 1, 0, 4, 5, 1, [(0, 1/10), (10, 1/10)], 1/4, 1/100, 6/5⟩ / 2 *
        ((1/4) * (1/4) * (2 : ℚ) * (2 : ℚ) + 1/10) := by
  have hr : rateAt (⟨1, 1, 1, 1, 0, 4, 5, 1, [(0, 1/10), (10, 1/10)], 1/4, 1/100, 6/5⟩ :
      Params) 1 = some (1/10) := by
    norm_num [rateAt, evalIR, dTstep]
  have h := cn_coefficients_c1 _ 1 2 (1/10) hr (by norm_num) (by norm_num)
  exact ⟨hr, by norm_num, by norm_num, h.2.1, h.2.2.2.2.2.2.2.2.2.2.1⟩

/-- C3: in every projected-SOR sweep of `american_price`, each interior node
is set to the maximum of the exercise payoff at its spot and the relaxed
Gauss-Seidel value (middle nodes use `a (j-1) * F_new (j-1)`, the value
already updated in this sweep; the first node has no subdiagonal term and the
last node no superdiagonal term), so every iterate dominates the payoff at
every interior node. -/
theorem american_sor_sweep_c3 (p : Params) (a b c RHS F : ℕ → ℚ) (hsm : 3 ≤ p.sm) :
    (sorSweep p a b c RHS F 0 = max (payoffAt p 0)
      (F 0 + p.w / (1 - b 0) * (RHS 0 - (1 - b 0) * F 0 + c 0 * F 1))) ∧
    (∀ j, 1 ≤ j → j < p.sm - 2 → sorSweep p a b c RHS F j = max (payoffAt p j)
      (F j + p.w / (1 - b j) * (RHS j + a (j - 1) * sorSweep p a b c RHS F (j - 1) -
        (1 - b j) * F j + c j * F (j + 1)))) ∧
    (sorSweep p a b c RHS F (p.sm - 2) = max (payoffAt p (p.sm - 2))
      (F (p.sm - 2) + p.w / (1 - b (p.sm - 2)) * (RHS (p.sm - 2) +
        a (p.sm - 2 - 1) * sorSweep p a b c RHS F (p.sm - 2 - 1) -
        (1 - b (p.sm - 2)) * F (p.sm - 2)))) ∧
    (∀ j, j < p.sm - 1 → payoffAt p j ≤ sorSweep p a b c RHS F j) := by
  refine ⟨rfl, ?_, ?_, ?_⟩
  · intro j hj1 hj2
    obtain ⟨k, rfl⟩ : ∃ k, j = k + 1 := ⟨j - 1, by omega⟩
    rw [sorSweep, if_pos hj2]
    simp only [Nat.add_sub_cancel]
  · obtain ⟨k, hk⟩ : ∃ k, p.sm - 2 = k + 1 := ⟨p.sm - 3, by omega⟩
    rw [hk, sorSweep, if_neg (by omega), if_pos hk.symm]
    simp only [Nat.add_sub_cancel]
  · intro j hj
    cases j with
    | zero => exact le_max_left _ _
    | succ k =>
      rw [sorSweep]
      split_ifs with h1 h2
      · exact le_max_left _ _
      · exact le_max_left _ _
      · exact absurd hj (by omega)

theorem american_sor_sweep_c3_witness :
    3 ≤ (⟨-1, 0, 1, 2, 0, 2, 4, 1, [(0, 0), (10, 0)], 1/2, 1/100, 6/5⟩ : Params).sm ∧
    (∀ j, j < (⟨-1, 0, 1, 2, 0, 2, 4, 1, [(0, 0), (10, 0)], 1/2, 1/100, 6/5⟩ : Params).sm - 1 →
      payoffAt ⟨-1, 0, 1, 2, 0, 2, 4, 1, [(0, 0), (10, 0)], 1/2, 1/100, 6/5⟩ j ≤
        sorSweep ⟨-1, 0, 1, 2, 0, 2, 4, 1, [(0, 0), (10, 0)], 1/2, 1/100, 6/5⟩
          (fun i => (i : ℚ)) (fun i => (i : ℚ) + 2) (fun i => (i : ℚ) - 1)
          (fun i => (i : ℚ) / 3) (fun i => (i : ℚ) + 1) j) :=
  ⟨by norm_num,
    (american_sor_sweep_c3 ⟨-1, 0, 1, 2, 0, 2, 4, 1, [(0, 0), (10, 0)], 1/2, 1/100, 6/5⟩
      (fun i => (i : ℚ)) (fun i => (i : ℚ) + 2) (fun i => (i : ℚ) - 1)
      (fun i => (i : ℚ) / 3) (fun i => (i : ℚ) + 1) (by norm_num)).2.2.2⟩

/-- C6: the SOR inner loop of `american_price` runs sweeps while the error
exceeds the caller-supplied tolerance and has no iteration cap: for every
tolerance, relaxation and right-hand side, the loop (modelled with arbitrary
fuel) halts for some fuel exactly when the error sequence
(`1e6`, then `‖F_k - F_{k+1}‖₂`) eventually drops to the tolerance. -/
theorem american_sor_termination_c6 (p : Params) (a b c RHS F0 : ℕ → ℚ) :
    (∃ fuel F', sorLoop p a b c RHS fuel F0 (10 ^ 12) = some F') ↔
    (∃ k, sqrtLE (errSeq p a b c RHS F0 k) p.tol) := by
  constructor
  · rintro ⟨fuel, F', hF⟩
    have key : ∀ fuel j F', sorLoop p a b c RHS fuel (sweepIter p a b c RHS F0 j)
        (errSeq p a b c RHS F0 j) = some F' →
        ∃ k, sqrtLE (errSeq p a b c RHS F0 k) p.tol := by
      intro fuel
      induction fuel with
      | zero =>
        intro j F' h
        rw [sorLoop] at h
        by_cases hcond : p.tol < 0 ∨ p.tol * p.tol < errSeq p a b c RHS F0 j
        · rw [if_pos hcond] at h
          exact absurd h (by simp)
        · push_neg at hcond
          exact ⟨j, hcond.1, hcond.2⟩
      | succ f ih =>
        intro j F' h
        rw [sorLoop] at h
        by_cases hcond : p.tol < 0 ∨ p.tol * p.tol < errSeq p a b c RHS F0 j
        · rw [if_pos hcond] at h
          exact ih (j + 1) F' h
        · push_neg at hcond
          exact ⟨j, hcond.1, hcond.2⟩
    exact key fuel 0 F' hF
  · rintro ⟨k, hk⟩
    have key : ∀ k j, sqrtLE (errSeq p a b c RHS F0 (j + k)) p.tol →
        ∃ F', sorLoop p a b c RHS k (sweepIter p a b c RHS F0 j)
          (errSeq p a b c RHS F0 j) = some F' := by
      intro k
      induction k with
      | zero =>
        intro j hj
        rw [Nat.add_zero] at hj
        refine ⟨sweepIter p a b c RHS F0 j, ?_⟩
        rw [sorLoop, if_neg ?_]
        rintro (h | h)
        · exact absurd hj.1 (not_le.mpr h)
        · exact absurd hj.2 (not_le.mpr h)
      | succ f ih =>
        intro j hj
        by_cases hcond : p.tol < 0 ∨ p.tol * p.tol < errSeq p a b c RHS F0 j
        · obtain ⟨F', hF'⟩ := ih (j + 1)
            (by rw [show j + 1 + f = j + (f + 1) from by omega]; exact hj)
          exact ⟨F', by rw [sorLoop, if_pos hcond]; exact hF'⟩
        · exact ⟨sweepIter p a b c RHS F0 j, by rw [sorLoop, if_neg hcond]⟩
    obtain ⟨F', hF'⟩ := key k 0 (by rw [Nat.zero_add]; exact hk)
    exact ⟨k, F', hF'⟩

theorem validate_ok_pos (p : Params) (h : validate p = Except.ok ()) :
    0 < p.K ∧ p.tm ≠ 0 ∧ p.sm ≠ 0 ∧ 0 < p.S0 ∧ 0 < p.vol := by
  unfold validate at h
  split_ifs at h with h1 h2 h3 h4 h5 h6 h7 h8 <;> try simp at h
  exact ⟨not_le.mp h4, h5, h6, not_le.mp h7, not_le.mp h8⟩

/-- C4: when the backward march completes, `Option::price()` returns the grid
value at spot row `round(S0/ΔS)` (converted to an index) and time column `0`,
as a rational (double) value; the row index is within `1/2` of `S0/ΔS`. -/
theorem price_readout_c4 (p : Params) (expf : ℚ → ℚ) (fuel : ℕ)
    (st : (ℕ → ℕ → ℚ) × (ℕ → ℚ)) (hv : validate p = Except.ok ())
    (hm : marchResult p expf fuel = some st) :
    priceOf p expf fuel = some (st.1 (priceIdx p) 0) ∧
    ((priceIdx p : ℚ)) ≤ p.S0 / dSstep p + 1/2 ∧
    p.S0 / dSstep p - 1/2 ≤ (priceIdx p : ℚ) := by
  obtain ⟨hK, htm, hsm, hS0, hvol⟩ := validate_ok_pos p hv
  have hsmQ : (0 : ℚ) < p.sm := by exact_mod_cast Nat.pos_of_ne_zero hsm
  have hq : 0 < p.S0 / dSstep p := by
    unfold dSstep
    exact div_pos hS0 (div_pos (by linarith) hsmQ)
  have hfl0 : 0 ≤ ⌊p.S0 / dSstep p + 1/2⌋ := Int.floor_nonneg.mpr (by linarith)
  have hround : (priceIdx p : ℚ) = (⌊p.S0 / dSstep p + 1/2⌋ : ℤ) := by
    unfold priceIdx roundQ
    rw [if_pos hq.le]
    exact_mod_cast congrArg (fun z : ℤ => (z : ℚ)) (Int.toNat_of_nonneg hfl0)
  refine ⟨?_, ?_, ?_⟩
  · unfold priceOf
    rw [hv, hm]
    rfl
  · rw [hround]
    exact_mod_cast Int.floor_le (p.S0 / dSstep p + 1/2)
  · rw [hround]
    have := Int.lt_floor_add_one (p.S0 / dSstep p + 1/2)
    push_cast at this ⊢
    linarith

theorem price_readout_c4_witness :
    validate ⟨1, 1, 1, 1, 0, 1, 2, 1, [(0, 0), (1, 0)], 1/4, 1/100, 6/5⟩ = Except.ok () ∧
    marchResult ⟨1, 1, 1, 1, 0, 1, 2, 1, [(0, 0), (1, 0)], 1/4, 1/100, 6/5⟩ (fun _ => 1) 0 =
      some (initGrid ⟨1, 1, 1, 1, 0, 1, 2, 1, [(0, 0), (1, 0)], 1/4, 1/100, 6/5⟩,
        initF ⟨1, 1, 1, 1, 0, 1, 2, 1, [(0, 0), (1, 0)], 1/4, 1/100, 6/5⟩) ∧
    priceOf ⟨1, 1, 1, 1, 0, 1, 2, 1, [(0, 0), (1, 0)], 1/4, 1/100, 6/5⟩ (fun _ => 1) 0 =
      some ((initGrid ⟨1, 1, 1, 1, 0, 1, 2, 1, [(0, 0), (1, 0)], 1/4, 1/100, 6/5⟩)
        (priceIdx ⟨1, 1, 1, 1, 0, 1, 2, 1, [(0, 0), (1, 0)], 1/4, 1/100, 6/5⟩) 0) := by
  have hv : validate (⟨1, 1, 1, 1, 0, 1, 2, 1, [(0, 0), (1, 0)], 1/4, 1/100, 6/5⟩ : Params) =
      Except.ok () := by
    norm_num [validate]
  have hm : marchResult (⟨1, 1, 1, 1, 0, 1, 2, 1, [(0, 0), (1, 0)], 1/4, 1/100, 6/5⟩ : Params)
      (fun _ => 1) 0 =
      some (initGrid ⟨1, 1, 1, 1, 0, 1, 2, 1, [(0, 0), (1, 0)], 1/4, 1/100, 6/5⟩,
        initF ⟨1, 1, 1, 1, 0, 1, 2, 1, [(0, 0), (1, 0)], 1/4, 1/100, 6/5⟩) := by
    norm_num [marchResult, euroMarch]
  exact ⟨hv, hm,
    (price_readout_c4 ⟨1, 1, 1, 1, 0, 1, 2, 1, [(0, 0), (1, 0)], 1/4, 1/100, 6/5⟩
      (fun _ => 1) 0 _ hv hm).1⟩

/-- C9: since `ΔS = 5·S0/spot_mesh`, the spot row read by `price()`,
`round(S0/ΔS)`, equals `round(spot_mesh/5)` for every positive spot, strike
and mesh: the readout row depends only on the spot-mesh count. -/
theorem price_row_c9 (p p2 : Params) (hsm : 0 < p.sm) (hS : 0 < p.S0)
    (hsm2 : 0 < p2.sm) (hS2 : 0 < p2.S0) (heq : p.sm = p2.sm) :
    priceIdx p = (roundQ ((p.sm : ℚ) / 5)).toNat ∧ priceIdx p = priceIdx p2 := by
  have key : ∀ q : Params, 0 < q.sm → 0 < q.S0 → q.S0 / dSstep q = (q.sm : ℚ) / 5 := by
    intro q h1 h2
    unfold dSstep
    have hq : ((q.sm : ℚ)) ≠ 0 := by
      exact_mod_cast Nat.pos_iff_ne_zero.mp h1
    rw [div_div_eq_mul_div]
    rw [show (5 : ℚ) * q.S0 = q.S0 * 5 from mul_comm 5 q.S0,
      show q.S0 * (q.sm : ℚ) = (q.sm : ℚ) * q.S0 from mul_comm _ _]
    rw [mul_comm ((q.sm : ℚ)) q.S0, mul_div_mul_left _ _ (ne_of_gt h2)]
  constructor
  · unfold priceIdx
    rw [key p hsm hS]
  · unfold priceIdx
    rw [key p hsm hS, key p2 hsm2 hS2, heq]

theorem price_row_c9_witness :
    0 < (⟨1, 1, 1, 3, 0, 4, 7, 2, [(0, 0), (1, 0)], 1/4, 1/100, 6/5⟩ : Params).sm ∧
    0 < (⟨1, 1, 1, 3, 0, 4, 7, 2, [(0, 0), (1, 0)], 1/4, 1/100, 6/5⟩ : Params).S0 ∧
    0 < (⟨-1, 0, 2, 9, 0, 8, 7, 5, [(0, 1), (1, 1)], 1/2, 1/100, 6/5⟩ : Params).sm ∧
    0 < (⟨-1, 0, 2, 9, 0, 8, 7, 5, [(0, 1), (1, 1)], 1/2, 1/100, 6/5⟩ : Params).S0 ∧
    priceIdx ⟨1, 1, 1, 3, 0, 4, 7, 2, [(0, 0), (1, 0)], 1/4, 1/100, 6/5⟩ =
      (roundQ (((⟨1, 1, 1, 3, 0, 4, 7, 2, [(0, 0), (1, 0)], 1/4, 1/100, 6/5⟩ :
        Params).sm : ℚ) / 5)).toNat ∧
    priceIdx ⟨1, 1, 1, 3, 0, 4, 7, 2, [(0, 0), (1, 0)], 1/4, 1/100, 6/5⟩ =
      priceIdx ⟨-1, 0, 2, 9, 0, 8, 7, 5, [(0, 1), (1, 1)], 1/2, 1/100, 6/5⟩ := by
  have h := price_row_c9 ⟨1, 1, 1, 3, 0, 4, 7, 2, [(0, 0), (1, 0)], 1/4, 1/100, 6/5⟩
    ⟨-1, 0, 2, 9, 0, 8, 7, 5, [(0, 1), (1, 1)], 1/2, 1/100, 6/5⟩
    (by norm_num) (by norm_num) (by norm_num) (by norm_num) rfl
  exact ⟨by norm_num, by norm_num, by norm_num, by norm_num, h.1, h.2⟩

set_option maxHeartbeats 1000000 in
theorem priceOf_pAmZero : priceOf pAmZero (fun _ => 1) 5 = some (1 / 3) := by
  have hr0 : rateAt pAmZero 0 = some 0 := by
    norm_num [rateAt, evalIR, dTstep, pAmZero]
  have hr1 : rateAt pAmZero 1 = some 0 := by
    norm_num [rateAt, evalIR, dTstep, pAmZero]
  have haP : compute_aj pAmZero 1 = some (ajF pAmZero 0) := by
    unfold compute_aj
    rw [hr1]
    rfl
  have hbP : compute_bj pAmZero 1 = some (bjF pAmZero 0) := by
    unfold compute_bj
    rw [hr1]
    rfl
  have hcP : compute_cj pAmZero 1 = some (cjF pAmZero 0) := by
    unfold compute_cj
    rw [hr1]
    rfl
  obtain ⟨kpP, hKP⟩ : ∃ kp, compute_Kpair pAmZero (fun _ => 1) 1 = some kp := by
    unfold compute_Kpair
    rw [show (1 : ℕ) - 1 = 0 from rfl, hr0, hr1]
    exact ⟨_, rfl⟩
  have hloopP : ∀ a b c RHS : ℕ → ℚ,
      sorLoop pAmZero a b c RHS 5 (initF pAmZero) (10 ^ 12) = some (initF pAmZero) := by
    intro a b c RHS
    rw [show (5 : ℕ) = 4 + 1 from rfl, sorLoop, if_neg]
    rintro (h | h) <;> norm_num [pAmZero] at h
  have hstepP : amStep pAmZero (fun _ => 1) 5 1 (initGrid pAmZero, initF pAmZero) =
      some (writeCol (initGrid pAmZero) 0 (amColVec pAmZero (initF pAmZero)) pAmZero.sm,
        initF pAmZero) := by
    simp only [amStep, haP, hbP, hcP, hKP, hloopP, Option.map_some']
  have hvP : validate pAmZero = Except.ok () := by norm_num [validate, pAmZero]
  have hmarchP : marchResult pAmZero (fun _ => 1) 5 =
      some (writeCol (initGrid pAmZero) 0 (amColVec pAmZero (initF pAmZero)) pAmZero.sm,
        initF pAmZero) := by
    unfold marchResult
    rw [if_neg (by simp [show pAmZero.et = 0 from rfl]),
      show pAmZero.tm - 1 = 0 + 1 from rfl, amMarch, hstepP]
    rfl
  have hpi : priceIdx pAmZero = 1 := by
    unfold priceIdx roundQ
    rw [if_pos (by norm_num [dSstep, pAmZero])]
    rw [show pAmZero.S0 / dSstep pAmZero + 1 / 2 = 11 / 10 from by
      norm_num [dSstep, pAmZero]]
    rw [show ⌊(11 / 10 : ℚ)⌋ = 1 from by
      rw [Int.floor_eq_iff] <;> norm_num]
    rfl
  unfold priceOf
  rw [hvP, hmarchP, Option.map_some', hpi]
  norm_num [writeCol, amColVec, initF, terminalVec, dSstep, pAmZero, max_def]

set_option maxHeartbeats 2000000 in
theorem priceOf_pAmZero2 : priceOf pAmZero2 (fun _ => 1) 5 = some (80029 / 240015) := by
  have hr0' : rateAt pAmZero2 0 = some 0 := by
    norm_num [rateAt, evalIR, dTstep, pAmZero2]
  have hr1' : rateAt pAmZero2 1 = some 0 := by
    norm_num [rateAt, evalIR, dTstep, pAmZero2]
  have haP' : compute_aj pAmZero2 1 = some (ajF pAmZero2 0) := by
    unfold compute_aj
    rw [hr1']
    rfl
  have hbP' : compute_bj pAmZero2 1 = some (bjF pAmZero2 0) := by
    unfold compute_bj
    rw [hr1']
    rfl
  have hcP' : compute_cj pAmZero2 1 = some (cjF pAmZero2 0) := by
    unfold compute_cj
    rw [hr1']
    rfl
  have hKP' : compute_Kpair pAmZero2 (fun _ => 1) 1 = some (1 / 8000, -1 / 2000) := by
    unfold compute_Kpair
    rw [show (1 : ℕ) - 1 = 0 from rfl, hr0', hr1']
    norm_num [F0of, FMof, dTstep, pAmZero2]
  have hsw0 : sorSweep pAmZero2 (ajF pAmZero2 0) (bjF pAmZero2 0) (cjF pAmZero2 0)
      (rhsOf (compute_D (ajF pAmZero2 0) (bjF pAmZero2 0) (cjF pAmZero2 0))
        (pAmZero2.sm - 1) (initF pAmZero2) (1 / 8000, -1 / 2000))
      (initF pAmZero2) 0 = 80029 / 240015 := by
    rw [sorSweep]
    norm_num [payoffAt, ajF, bjF, cjF, rhsOf, Tridiag.apply, compute_D, scalarAdd,
      initF, terminalVec, dSstep, dTstep, pAmZero2, max_def]
  have hsw1 : sorSweep pAmZero2 (ajF pAmZero2 0) (bjF pAmZero2 0) (cjF pAmZero2 0)
      (rhsOf (compute_D (ajF pAmZero2 0) (bjF pAmZero2 0) (cjF pAmZero2 0))
        (pAmZero2.sm - 1) (initF pAmZero2) (1 / 8000, -1 / 2000))
      (initF pAmZero2) 1 = 0 := by
    have estep : sorSweep pAmZero2 (ajF pAmZero2 0) (bjF pAmZero2 0) (cjF pAmZero2 0)
        (rhsOf (compute_D (ajF pAmZero2 0) (bjF pAmZero2 0) (cjF pAmZero2 0))
          (pAmZero2.sm - 1) (initF pAmZero2) (1 / 8000, -1 / 2000))
        (initF pAmZero2) 1 =
        sorSweep pAmZero2 (ajF pAmZero2 0) (bjF pAmZero2 0) (cjF pAmZero2 0)
        (rhsOf (compute_D (ajF pAmZero2 0) (bjF pAmZero2 0) (cjF pAmZero2 0))
          (pAmZero2.sm - 1) (initF pAmZero2) (1 / 8000, -1 / 2000))
        (initF pAmZero2) (0 + 1) := rfl
    rw [estep, sorSweep,
      if_neg (by norm_num [show pAmZero2.sm = 3 from rfl]),
      if_pos (by norm_num [show pAmZero2.sm = 3 from rfl])]
    rw [hsw0]
    norm_num [payoffAt, ajF, bjF, cjF, rhsOf, Tridiag.apply, compute_D, scalarAdd,
      initF, terminalVec, dSstep, dTstep, pAmZero2, max_def]
  have herr : normSq (vecSub (initF pAmZero2)
      (sorSweep pAmZero2 (ajF pAmZero2 0) (bjF pAmZero2 0) (cjF pAmZero2 0)
        (rhsOf (compute_D (ajF pAmZero2 0) (bjF pAmZero2 0) (cjF pAmZero2 0))
          (pAmZero2.sm - 1) (initF pAmZero2) (1 / 8000, -1 / 2000))
        (initF pAmZero2))) (pAmZero2.sm - 1) = 64 / 6400800025 := by
    unfold normSq
    rw [show List.range (pAmZero2.sm - 1) = [0, 1] from rfl]
    simp only [List.map_cons, List.map_nil, List.sum_cons, List.sum_nil, vecSub]
    rw [hsw0, hsw1]
    norm_num [initF, terminalVec, dSstep, pAmZero2, max_def]
  have hloop' : sorLoop pAmZero2 (ajF pAmZero2 0) (bjF pAmZero2 0) (cjF pAmZero2 0)
      (rhsOf (compute_D (ajF pAmZero2 0) (bjF pAmZero2 0) (cjF pAmZero2 0))
        (pAmZero2.sm - 1) (initF pAmZero2) (1 / 8000, -1 / 2000)) 5
      (initF pAmZero2) (10 ^ 12) =
      some (sorSweep pAmZero2 (ajF pAmZero2 0) (bjF pAmZero2 0) (cjF pAmZero2 0)
        (rhsOf (compute_D (ajF pAmZero2 0) (bjF pAmZero2 0) (cjF pAmZero2 0))
          (pAmZero2.sm - 1) (initF pAmZero2) (1 / 8000, -1 / 2000))
        (initF pAmZero2)) := by
    rw [show (5 : ℕ) = 4 + 1 from rfl, sorLoop,
      if_pos (Or.inr (by norm_num [show pAmZero2.tol = 1/100 from rfl]))]
    rw [herr]
    rw [show (4 : ℕ) = 3 + 1 from rfl, sorLoop, if_neg]
    rintro (h | h) <;> norm_num [show pAmZero2.tol = 1/100 from rfl] at h
  have hstep' : amStep pAmZero2 (fun _ => 1) 5 1 (initGrid pAmZero2, initF pAmZero2) =
      some (writeCol (initGrid pAmZero2) 0
        (amColVec pAmZero2
          (sorSweep pAmZero2 (ajF pAmZero2 0) (bjF pAmZero2 0) (cjF pAmZero2 0)
            (rhsOf (compute_D (ajF pAmZero2 0) (bjF pAmZero2 0) (cjF pAmZero2 0))
              (pAmZero2.sm - 1) (initF pAmZero2) (1 / 8000, -1 / 2000))
            (initF pAmZero2))) pAmZero2.sm,
        sorSweep pAmZero2 (ajF pAmZero2 0) (bjF pAmZero2 0) (cjF pAmZero2 0)
          (rhsOf (compute_D (ajF pAmZero2 0) (bjF pAmZero2 0) (cjF pAmZero2 0))
            (pAmZero2.sm - 1) (initF pAmZero2) (1 / 8000, -1 / 2000))
          (initF pAmZero2)) := by
    simp only [amStep, haP', hbP', hcP', hKP', hloop', Option.map_some']
  have hvP' : validate pAmZero2 = Except.ok () := by norm_num [validate, pAmZero2]
  have hmarch' : marchResult pAmZero2 (fun _ => 1) 5 =
      some (writeCol (initGrid pAmZero2) 0
        (amColVec pAmZero2
          (sorSweep pAmZero2 (ajF pAmZero2 0) (bjF pAmZero2 0) (cjF pAmZero2 0)
            (rhsOf (compute_D (ajF pAmZero2 0) (bjF pAmZero2 0) (cjF pAmZero2 0))
              (pAmZero2.sm - 1) (initF pAmZero2) (1 / 8000, -1 / 2000))
            (initF pAmZero2))) pAmZero2.sm,
        sorSweep pAmZero2 (ajF pAmZero2 0) (bjF pAmZero2 0) (cjF pAmZero2 0)
          (rhsOf (compute_D (ajF pAmZero2 0) (bjF pAmZero2 0) (cjF pAmZero2 0))
            (pAmZero2.sm - 1) (initF pAmZero2) (1 / 8000, -1 / 2000))
          (initF pAmZero2)) := by
    unfold marchResult
    rw [if_neg (by simp [show pAmZero2.et = 0 from rfl]),
      show pAmZero2.tm - 1 = 0 + 1 from rfl, amMarch, hstep']
    rfl
  have hpi' : priceIdx pAmZero2 = 1 := by
    unfold priceIdx roundQ
    rw [if_pos (by norm_num [dSstep, pAmZero2])]
    rw [show pAmZero2.S0 / dSstep pAmZero2 + 1 / 2 = 11 / 10 from by
      norm_num [dSstep, pAmZero2]]
    rw [show ⌊(11 / 10 : ℚ)⌋ = 1 from by
      rw [Int.floor_eq_iff] <;> norm_num]
    rfl
  unfold priceOf
  rw [hvP', hmarch', Option.map_some', hpi']
  show some (writeCol (initGrid pAmZero2) 0
      (amColVec pAmZero2
        (sorSweep pAmZero2 (ajF pAmZero2 0) (bjF pAmZero2 0) (cjF pAmZero2 0)
          (rhsOf (compute_D (ajF pAmZero2 0) (bjF pAmZero2 0) (cjF pAmZero2 0))
            (pAmZero2.sm - 1) (initF pAmZero2) (1 / 8000, -1 / 2000))
          (initF pAmZero2))) pAmZero2.sm 1 0) = some (80029 / 240015)
  unfold writeCol
  rw [if_pos (⟨rfl, by norm_num [pAmZero2]⟩ : 0 = 0 ∧ (1 : ℕ) ≤ pAmZero2.sm)]
  unfold amColVec
  rw [if_neg (by norm_num), if_pos (by norm_num [pAmZero2] : (1 : ℕ) < pAmZero2.sm),
    show (1 : ℕ) - 1 = 0 from rfl, hsw0]

/-- C10 (counterexample to the claim as stated): for the American put
`pAmZero` (first control rate `0`, but a non-default SOR tolerance), the
shifted curve equals the original, yet `rho` divides a nonzero price
difference by the zero shift -- the reprice uses the constructor defaults
`tol = 0.01, w = 1.2` and so runs one SOR sweep that the original (whose huge
tolerance stops the loop immediately) never ran.  The result is an infinity,
not the claimed 0/0 NaN. -/
theorem rho_zero_first_rate_c10_counterexample :
    firstRate pAmZero.ir = 0 ∧ rho pAmZero (fun _ => 1) 5 1 = some DivRes.inf := by
  have hfr : firstRate pAmZero.ir = 0 := by norm_num [firstRate, pAmZero]
  have hshift : rhoParams pAmZero 1 = pAmZero2 := by
    norm_num [rhoParams, shiftCurve, firstRate, pAmZero, pAmZero2]
  refine ⟨hfr, ?_⟩
  unfold rho
  rw [priceOf_pAmZero, hshift, priceOf_pAmZero2, hfr]
  norm_num [divD]

theorem shiftCurve_zero (ir : List (ℚ × ℚ)) : shiftCurve ir 0 = ir := by
  unfold shiftCurve
  simp

theorem euroStep_tolw (p : Params) (t' w' : ℚ) (expf : ℚ → ℚ) (jj : ℕ)
    (st : (ℕ → ℕ → ℚ) × (ℕ → ℚ)) :
    euroStep { p with tol := t', w := w' } expf jj st = euroStep p expf jj st := rfl

theorem euroMarch_tolw (p : Params) (t' w' : ℚ) (expf : ℚ → ℚ) :
    ∀ (n : ℕ) (st : (ℕ → ℕ → ℚ) × (ℕ → ℚ)),
      euroMarch { p with tol := t', w := w' } expf n st = euroMarch p expf n st := by
  intro n
  induction n with
  | zero => intro st; rfl
  | succ k ih =>
    intro st
    rw [euroMarch, euroMarch, euroStep_tolw]
    exact congrArg (Option.bind _) (funext ih)

theorem priceOf_tolw (p : Params) (t' w' : ℚ) (expf : ℚ → ℚ) (fuel : ℕ)
    (het : p.et ≠ 0) :
    priceOf { p with tol := t', w := w' } expf fuel = priceOf p expf fuel := by
  unfold priceOf marchResult
  rw [show validate { p with tol := t', w := w' } = validate p from rfl]
  cases hv : validate p with
  | error e => rfl
  | ok u =>
    rw [if_pos het, if_pos het, euroMarch_tolw]
    rfl

/-- C10 (amended): `rho(h)` shifts the curve by `h` times the first control
rate and divides the price difference by that shift.  For every option whose
first control point has rate `0` and whose price does not depend on the SOR
tolerance and relaxation that the reprice resets to their defaults (every
European option, or an American option already using `tol = 0.01, w = 1.2`),
the shifted curve equals the original, the price difference is exactly `0`,
and `rho` returns the 0/0 IEEE division (NaN) instead of raising an error. -/
theorem rho_nan_c10 (p : Params) (expf : ℚ → ℚ) (fuel : ℕ) (h : ℚ) (pr : ℚ)
    (hfr : firstRate p.ir = 0)
    (hdef : p.et ≠ 0 ∨ (p.tol = 1/100 ∧ p.w = 6/5))
    (hp : priceOf p expf fuel = some pr) :
    shiftCurve p.ir (h * firstRate p.ir) = p.ir ∧
    rho p expf fuel h = some DivRes.nan := by
  have hsh : shiftCurve p.ir (h * firstRate p.ir) = p.ir := by
    rw [hfr, mul_zero]
    exact shiftCurve_zero p.ir
  have hrp : rhoParams p h = { p with tol := 1/100, w := 6/5 } := by
    unfold rhoParams
    rw [hsh]
  refine ⟨hsh, ?_⟩
  have hpp : priceOf (rhoParams p h) expf fuel = some pr := by
    rw [hrp]
    rcases hdef with het | ⟨htol, hw⟩
    · rw [priceOf_tolw p (1/100) (6/5) expf fuel het]
      exact hp
    · rw [show ({ p with tol := 1/100, w := 6/5 } : Params) = p from by
        rw [← htol, ← hw]]
      exact hp
  unfold rho
  rw [hp, hpp, hfr, mul_zero]
  norm_num [divD]

theorem rho_nan_c10_witness :
    firstRate pEuroW.ir = 0 ∧
    (pEuroW.et ≠ 0 ∨ (pEuroW.tol = 1/100 ∧ pEuroW.w = 6/5)) ∧
    priceOf pEuroW (fun _ => 1) 3 = some 0 ∧
    (shiftCurve pEuroW.ir (2 * firstRate pEuroW.ir) = pEuroW.ir ∧
      rho pEuroW (fun _ => 1) 3 2 = some DivRes.nan) := by
  have hfr : firstRate pEuroW.ir = 0 := by norm_num [firstRate, pEuroW]
  have hdef : pEuroW.et ≠ 0 ∨ (pEuroW.tol = 1/100 ∧ pEuroW.w = 6/5) :=
    Or.inl (by norm_num [pEuroW])
  have hv : validate pEuroW = Except.ok () := by norm_num [validate, pEuroW]
  have hpi : priceIdx pEuroW = 0 := by
    unfold priceIdx roundQ
    rw [if_pos (by norm_num [dSstep, pEuroW])]
    rw [show pEuroW.S0 / dSstep pEuroW + 1 / 2 = 9 / 10 from by
      norm_num [dSstep, pEuroW]]
    rw [show ⌊(9 / 10 : ℚ)⌋ = 0 from by
      rw [Int.floor_eq_iff] <;> norm_num]
    rfl
  have hp : priceOf pEuroW (fun _ => 1) 3 = some 0 := by
    unfold priceOf
    rw [hv]
    unfold marchResult
    rw [if_pos (by norm_num [show pEuroW.et = 1 from rfl]),
      show pEuroW.tm - 1 = 0 from rfl, euroMarch, Option.map_some', hpi]
    norm_num [initGrid, writeCol, terminalVec, dSstep, pEuroW, max_def]
  exact ⟨hfr, hdef, hp, rho_nan_c10 pEuroW (fun _ => 1) 3 2 0 hfr hdef hp⟩
